import Mathlib

/-!
# Verification of the md2llm markdown-to-LLM-rules converter

A shallow embedding, in Lean 4, of the core logic of the `md2llm` CLI tool:

* `src/processors/snippet-extractor.js` — token-stream scanning, snippet
  extraction, heading/description association (`extractSnippetsFromTokens`,
  `extractSnippetFromToken`, `extractSnippetDescription`, `formatSnippet`);
* `src/formatters/output-formatter.js` — content rendering
  (`generateOutputContent`, `generateMdcFrontmatter`, `generateAtTag`);
* `src/processors/markdown-processor.js` — output naming and package-aware
  placement (`determineOutputInfo`, `determinePackageOutputInfo`,
  `processFileInPackageDirectory`, `processMarkdownFile`,
  `processPackageMarkdownFiles`);
* `src/utils/source-url-manager.js` — package-name parsing
  (`getScopeAndName`);
* `src/utils/package-grouper.js` — grouping files by package context
  (`groupFilesByPackage`, `getPackageContext`, `checkParentDirectories`);
* `src/core/conversion-processor.js` — the batch loop and its fail-at-end
  error accounting (`processGroupedFiles`, `processConversion`);
* `src/cli/option-validator.js` and `src/cli/command-handler.js` — option
  validation (`validateOptions`, `validateMdcOptions`, `handleConvertCommand`).

Filesystem access (`fs.existsSync`, `readFileSync`, `writeFileSync`,
directory creation), the markdown-it tokenizer and the source-URL environment
variable are external collaborators; they are modelled by an explicit `Env`
record of functions, and "writing a file" is modelled by returning the
`(output info, content)` pair that the JavaScript code passes to
`fs.writeFileSync` (`none` when nothing is written).

JavaScript strings are modelled by `String`; `String.prototype.trim` is
modelled by `jsTrim` (strip leading/trailing whitespace, defined on the
character list), `Array.prototype.join` by `joinWith`, and string truthiness
by comparison with `""`.
-/

namespace Md2llm

/-! ## JavaScript string primitives -/

/-- Whitespace test used by the model of `String.prototype.trim`
(space, tab, line feed, carriage return, vertical tab, form feed,
no-break space). -/
def isJsSpace (c : Char) : Bool :=
  c = ' ' || c = '\t' || c = '\n' || c = '\r' || c = '\x0b' || c = '\x0c' || c = '\xa0'

/-- Strip leading and trailing whitespace from a character list. -/
def jsTrimList (l : List Char) : List Char :=
  ((l.dropWhile isJsSpace).reverse.dropWhile isJsSpace).reverse

/-- Model of `String.prototype.trim`. -/
def jsTrim (s : String) : String :=
  ⟨jsTrimList s.data⟩

/-- Model of JavaScript `Array.prototype.join(sep)` for arrays of strings. -/
def joinWith (sep : String) : List String → String
  | [] => ""
  | [x] => x
  | x :: y :: xs => x ++ sep ++ joinWith sep (y :: xs)

/-! ### Lemmas about `jsTrim` -/

theorem dropWhile_eq_self_of_head? {p : Char → Bool} {l : List Char}
    (h : ∀ a, l.head? = some a → p a = false) : l.dropWhile p = l := by
  cases l with
  | nil => rfl
  | cons c t =>
    have hc : p c = false := h c rfl
    simp [List.dropWhile_cons, hc]

theorem head?_dropWhile {p : Char → Bool} : ∀ (l : List Char) (a : Char),
    (l.dropWhile p).head? = some a → p a = false := by
  intro l
  induction l with
  | nil => intro a h; simp [List.dropWhile] at h
  | cons c t ih =>
    intro a h
    by_cases hc : p c = true
    · rw [List.dropWhile_cons, if_pos hc] at h
      exact ih a h
    · rw [List.dropWhile_cons, if_neg hc] at h
      have hca : c = a := Option.some.inj h
      rw [← hca]
      exact Bool.eq_false_iff.mpr hc

theorem getLast?_dropWhile_of_ne_nil {p : Char → Bool} {l : List Char}
    (h : l.dropWhile p ≠ []) : (l.dropWhile p).getLast? = l.getLast? := by
  obtain ⟨w, hw⟩ := List.dropWhile_suffix (l := l) p
  conv_rhs => rw [← hw]
  rw [List.getLast?_append]
  cases hd : (l.dropWhile p).getLast? with
  | none => exact absurd (List.getLast?_eq_none_iff.mp hd) h
  | some a => rfl

theorem jsTrimList_eq_self {l : List Char}
    (h1 : ∀ a, l.head? = some a → isJsSpace a = false)
    (h2 : ∀ a, l.getLast? = some a → isJsSpace a = false) :
    jsTrimList l = l := by
  unfold jsTrimList
  rw [dropWhile_eq_self_of_head? h1]
  have hrev : l.reverse.dropWhile isJsSpace = l.reverse := by
    apply dropWhile_eq_self_of_head?
    intro a ha
    rw [List.head?_reverse] at ha
    exact h2 a ha
  rw [hrev, List.reverse_reverse]

theorem jsTrimList_idem (l : List Char) :
    jsTrimList (jsTrimList l) = jsTrimList l := by
  by_cases hC : (l.dropWhile isJsSpace).reverse.dropWhile isJsSpace = []
  · unfold jsTrimList
    rw [hC]
    rfl
  · apply jsTrimList_eq_self
    · intro a ha
      unfold jsTrimList at ha
      rw [List.head?_reverse, getLast?_dropWhile_of_ne_nil hC,
        List.getLast?_reverse] at ha
      exact head?_dropWhile l a ha
    · intro a ha
      unfold jsTrimList at ha
      rw [List.getLast?_reverse] at ha
      exact head?_dropWhile (l.dropWhile isJsSpace).reverse a ha

theorem jsTrim_idem (s : String) : jsTrim (jsTrim s) = jsTrim s :=
  congrArg String.mk (jsTrimList_idem s.data)

theorem jsTrim_empty : jsTrim "" = "" := rfl

/-! ### `jsTrim` leaves `"Snippet N"` unchanged -/

theorem digitChar_not_space (m : Nat) : isJsSpace (Nat.digitChar m) = false := by
  rcases Nat.lt_or_ge m 16 with h | h
  · interval_cases m <;> decide
  · have hstar : Nat.digitChar m = '*' := by
      unfold Nat.digitChar
      repeat rw [if_neg (by omega)]
    rw [hstar]
    decide

theorem toDigitsCore_not_space : ∀ (fuel n : Nat) (ds : List Char),
    (∀ c ∈ ds, isJsSpace c = false) →
    ∀ c ∈ Nat.toDigitsCore 10 fuel n ds, isJsSpace c = false := by
  intro fuel
  induction fuel with
  | zero =>
    intro n ds h c hc
    rw [Nat.toDigitsCore] at hc
    exact h c hc
  | succ f ih =>
    intro n ds h c hc
    rw [Nat.toDigitsCore] at hc
    by_cases hz : n / 10 = 0
    · rw [if_pos hz] at hc
      rcases List.mem_cons.mp hc with hc | hc
      · rw [hc]; exact digitChar_not_space _
      · exact h c hc
    · rw [if_neg hz] at hc
      refine ih (n / 10) _ ?_ c hc
      intro c' hc'
      rcases List.mem_cons.mp hc' with hc' | hc'
      · rw [hc']; exact digitChar_not_space _
      · exact h c' hc'

theorem toDigitsCore_ne_nil : ∀ (fuel n : Nat) (ds : List Char),
    ds ≠ [] → Nat.toDigitsCore 10 fuel n ds ≠ [] := by
  intro fuel
  induction fuel with
  | zero =>
    intro n ds h
    rw [Nat.toDigitsCore]
    exact h
  | succ f ih =>
    intro n ds h
    rw [Nat.toDigitsCore]
    by_cases hz : n / 10 = 0
    · rw [if_pos hz]; exact List.cons_ne_nil _ _
    · rw [if_neg hz]; exact ih _ _ (List.cons_ne_nil _ _)

theorem toDigits_ne_nil (n : Nat) : Nat.toDigits 10 n ≠ [] := by
  unfold Nat.toDigits
  rw [Nat.toDigitsCore]
  by_cases hz : n / 10 = 0
  · rw [if_pos hz]; exact List.cons_ne_nil _ _
  · rw [if_neg hz]; exact toDigitsCore_ne_nil _ _ _ (List.cons_ne_nil _ _)

theorem toDigits_not_space (n : Nat) :
    ∀ c ∈ Nat.toDigits 10 n, isJsSpace c = false := by
  intro c hc
  exact toDigitsCore_not_space (n + 1) n [] (by intro c' hc'; cases hc') c hc

theorem toString_nat_data (n : Nat) : (toString n).data = Nat.toDigits 10 n := rfl

theorem jsTrim_snippetN (n : Nat) :
    jsTrim ("Snippet " ++ toString n) = "Snippet " ++ toString n := by
  apply String.ext
  show jsTrimList ("Snippet " ++ toString n).data = ("Snippet " ++ toString n).data
  rw [String.data_append, toString_nat_data]
  apply jsTrimList_eq_self
  · intro a ha
    have : ("Snippet ".data ++ Nat.toDigits 10 n).head? = some 'S' := rfl
    rw [this] at ha
    cases ha
    decide
  · intro a ha
    rw [List.getLast?_append] at ha
    cases hd : (Nat.toDigits 10 n).getLast? with
    | none => exact absurd (List.getLast?_eq_none_iff.mp hd) (toDigits_ne_nil n)
    | some d =>
      rw [hd] at ha
      have hda : d = a := Option.some.inj ha
      obtain ⟨hne, hdl⟩ := List.mem_getLast?_eq_getLast (l := Nat.toDigits 10 n) hd
      rw [← hda]
      exact toDigits_not_space n d (hdl ▸ List.getLast_mem hne)

/-! ## Data model: markdown tokens and snippets

A markdown-it token is modelled by its three fields the extractor reads:
`type` (e.g. `"heading_open"`, `"inline"`, `"fence"`, `"paragraph_open"`),
`content` (raw text, `""` when absent) and `info` (the fence info string).
-/

structure Token where
  type : String
  content : String := ""
  info : String := ""
deriving Repr, DecidableEq

structure Snippet where
  title : String
  description : String
  source : String
  language : String
  code : String
deriving Repr, DecidableEq

/-! ## Snippet extractor (`src/processors/snippet-extractor.js`)

The JavaScript scanner walks the token array with an index; here the
already-visited prefix is carried in reverse order (`prev`), so that the
backward description scan from a fence at index `i` — the loop
`for (let i = fenceIndex - 1; i >= 0; i--)` — becomes a forward walk over
`prev = (tokens.take fenceIndex).reverse`.
-/

/-- The body of the backward loop of `extractSnippetDescription`, walking the
reversed prefix of the token stream: return the first non-empty (after trim)
inline content, skip `paragraph_open`, stop with `""` at `heading_open` or
another `fence`, and skip every other token type (no branch of the source
loop matches them). -/
def descLoop : List Token → String
  | [] => ""
  | t :: rest =>
    if t.type = "inline" ∧ jsTrim t.content ≠ "" then jsTrim t.content
    else if t.type = "paragraph_open" then descLoop rest
    else if t.type = "heading_open" ∨ t.type = "fence" then ""
    else descLoop rest

/-- `extractSnippetDescription(tokens, fenceIndex)`: backward scan from the
token preceding the fence. -/
def extractSnippetDescription (tokens : List Token) (fenceIndex : Nat) : String :=
  descLoop (tokens.take fenceIndex).reverse

/-- `extractHeadingText(tokens, headingIndex)` reads `tokens[headingIndex+1]`;
here that token is the head of the remaining list. -/
def extractHeadingText (next : Option Token) : String :=
  match next with
  | some t => if t.type = "inline" then jsTrim t.content else ""
  | none => ""

/-- `extractSnippetFromToken(fenceToken, tokens, tokenIndex, lastHeading,
snippetCount, filePath)`; `prev` is the reversed token prefix before the
fence (replacing the `(tokens, tokenIndex)` pair, see above). A fence whose
`content` is empty (falsy) yields `none`. -/
def extractSnippetFromToken (fenceToken : Token) (prev : List Token)
    (lastHeading : String) (snippetCount : Nat) (filePath : String) :
    Option Snippet :=
  if fenceToken.content = "" then none
  else
    some
      { title := jsTrim (if lastHeading = "" then "Snippet " ++ toString snippetCount else lastHeading)
        description := jsTrim (descLoop prev)
        source := filePath
        language := jsTrim (if fenceToken.info = "" then "text" else fenceToken.info)
        code := jsTrim fenceToken.content }

/-- `lastHeading = extractHeadingText(tokens, i)` when the current token is a
`heading_open`, otherwise the heading is unchanged. -/
def updateHeading (t : Token) (rest : List Token) (lastHeading : String) : String :=
  if t.type = "heading_open" then extractHeadingText rest.head? else lastHeading

/-- The `for` loop of `extractSnippetsFromTokens`: `prev` is the reversed
prefix of already-visited tokens, `lastHeading` and `snippetCount` the two
pieces of loop state (`snippetCount` is incremented only when a snippet is
actually pushed). -/
def extractGo (filePath : String) :
    List Token → List Token → String → Nat → List Snippet
  | _, [], _, _ => []
  | prev, t :: rest, lastHeading, snippetCount =>
    if t.type = "fence" then
      match extractSnippetFromToken t prev (updateHeading t rest lastHeading) snippetCount filePath with
      | some s => s :: extractGo filePath (t :: prev) rest (updateHeading t rest lastHeading) (snippetCount + 1)
      | none => extractGo filePath (t :: prev) rest (updateHeading t rest lastHeading) snippetCount
    else
      extractGo filePath (t :: prev) rest (updateHeading t rest lastHeading) snippetCount

/-- `extractSnippetsFromTokens(tokens, filePath)` (the non-array guard of the
source returns `[]` and is outside this model: the argument is a list). -/
def extractSnippetsFromTokens (tokens : List Token) (filePath : String) : List Snippet :=
  extractGo filePath [] tokens "" 1

/-! ### Specification-side description of the backward scan -/

/-- A token at which the backward description scan of the specification
terminates: a non-empty (after trim) inline token, a heading-open, or
another fence. -/
def significantToken (t : Token) : Bool :=
  decide ((t.type = "inline" ∧ jsTrim t.content ≠ "") ∨ t.type = "heading_open" ∨ t.type = "fence")

/-- Modelled from the spec's words (§4.1): walking the tokens preceding the
fence in reverse, the description is the trimmed content of the first
non-empty inline token found, and is empty when a heading-open or another
fence is encountered first (every other token type is passed over).
`prev` is the reversed prefix of the stream before the fence. -/
def descriptionSpec (prev : List Token) : String :=
  match prev.find? significantToken with
  | some t => if t.type = "inline" then jsTrim t.content else ""
  | none => ""

theorem descLoop_eq_descriptionSpec : ∀ prev : List Token,
    descLoop prev = descriptionSpec prev := by
  intro prev
  induction prev with
  | nil => rfl
  | cons t rest ih =>
    by_cases h1 : t.type = "inline" ∧ jsTrim t.content ≠ ""
    · have hsig : significantToken t = true := by
        simp [significantToken]
        exact Or.inl h1
      rw [descriptionSpec, List.find?_cons, hsig]
      simp [descLoop, h1]
    · by_cases h2 : t.type = "heading_open" ∨ t.type = "fence"
      · have hsig : significantToken t = true := by
          simp only [significantToken, decide_eq_true_eq]
          exact Or.inr h2
        rw [descriptionSpec, List.find?_cons, hsig]
        have htni : ¬ t.type = "inline" := by
          rcases h2 with h2 | h2 <;> rw [h2] <;> decide
        have h3 : ¬ t.type = "paragraph_open" := by
          rcases h2 with h2 | h2 <;> rw [h2] <;> decide
        simp [descLoop, h1, h2, h3, htni]
      · have hsig : significantToken t = false := by
          simp only [significantToken, decide_eq_false_iff_not]
          intro hcon
          rcases hcon with hcon | hcon
          · exact h1 hcon
          · exact h2 hcon
        rw [descriptionSpec, List.find?_cons, hsig]
        by_cases h3 : t.type = "paragraph_open"
        · simp [descLoop, h1, h3, ih]
          rfl
        · simp [descLoop, h1, h2, h3, ih]
          rfl

theorem jsTrim_descriptionSpec (prev : List Token) :
    jsTrim (descriptionSpec prev) = descriptionSpec prev := by
  unfold descriptionSpec
  cases h : prev.find? significantToken with
  | none => rfl
  | some t =>
    by_cases ht : t.type = "inline"
    · simp [ht, jsTrim_idem]
    · simp [ht]
      rfl

/-! ### Structural lemmas about the extraction loop -/

/-- Number of fence tokens of a stream that produce snippets (those with
non-empty raw content). -/
def nonEmptyFenceCount (l : List Token) : Nat :=
  (l.filter (fun u => decide (u.type = "fence" ∧ u.content ≠ ""))).length

theorem extractGo_length (fp : String) : ∀ (rest prev : List Token) (lh : String) (c : Nat),
    (extractGo fp prev rest lh c).length = nonEmptyFenceCount rest := by
  intro rest
  induction rest with
  | nil => intro prev lh c; rfl
  | cons t rest ih =>
    intro prev lh c
    by_cases hf : t.type = "fence"
    · by_cases hc : t.content = ""
      · have hnone : extractSnippetFromToken t prev (updateHeading t rest lh) c fp = none := by
          rw [extractSnippetFromToken, if_pos hc]
        rw [extractGo, if_pos hf, hnone]
        have hcount : nonEmptyFenceCount (t :: rest) = nonEmptyFenceCount rest := by
          unfold nonEmptyFenceCount
          rw [List.filter_cons]
          have : decide (t.type = "fence" ∧ t.content ≠ "") = false := by
            simp [hc]
          rw [this]
          simp
        rw [hcount]
        exact ih _ _ _
      · have hsome : extractSnippetFromToken t prev (updateHeading t rest lh) c fp =
            some { title := jsTrim (if updateHeading t rest lh = "" then "Snippet " ++ toString c else updateHeading t rest lh)
                   description := jsTrim (descLoop prev)
                   source := fp
                   language := jsTrim (if t.info = "" then "text" else t.info)
                   code := jsTrim t.content } := by
          rw [extractSnippetFromToken, if_neg hc]
        rw [extractGo, if_pos hf, hsome]
        have hcount : nonEmptyFenceCount (t :: rest) = nonEmptyFenceCount rest + 1 := by
          unfold nonEmptyFenceCount
          rw [List.filter_cons]
          have : decide (t.type = "fence" ∧ t.content ≠ "") = true := by
            simp [hf, hc]
          rw [this]
          simp
        rw [hcount]
        simp [ih]
    · rw [extractGo, if_neg hf]
      have hcount : nonEmptyFenceCount (t :: rest) = nonEmptyFenceCount rest := by
        unfold nonEmptyFenceCount
        rw [List.filter_cons]
        have : decide (t.type = "fence" ∧ t.content ≠ "") = false := by
          simp [hf]
        rw [this]
        simp
      rw [hcount]
      exact ih _ _ _

/-- Reaching the fence at position `i` of the remaining stream: as long as no
`heading_open` occurs before it, the loop's heading state stays `""` and the
snippet emitted for that fence sits at output position
`nonEmptyFenceCount (rest.take i)`, built with counter
`count + nonEmptyFenceCount (rest.take i)`. -/
theorem extractGo_get_fence (fp : String) :
    ∀ (rest prev : List Token) (count i : Nat) (t : Token),
    rest.get? i = some t → t.type = "fence" → t.content ≠ "" →
    (∀ j u, j < i → rest.get? j = some u → u.type ≠ "heading_open") →
    (extractGo fp prev rest "" count).get? (nonEmptyFenceCount (rest.take i)) =
      extractSnippetFromToken t ((rest.take i).reverse ++ prev) ""
        (count + nonEmptyFenceCount (rest.take i)) fp := by
  intro rest
  induction rest with
  | nil =>
    intro prev count i t hget
    simp at hget
  | cons u rest ih =>
    intro prev count i t hget htype hcontent hnohead
    cases i with
    | zero =>
      have hu : u = t := by
        simpa using hget
      subst hu
      have hupd : updateHeading u rest "" = "" := by
        unfold updateHeading
        rw [if_neg]
        rw [htype]
        decide
      rw [extractGo, if_pos htype, hupd]
      cases hs : extractSnippetFromToken u prev "" count fp with
      | none =>
        rw [extractSnippetFromToken, if_neg hcontent] at hs
        cases hs
      | some s =>
        simp [nonEmptyFenceCount]
        rw [hs]
    | succ i =>
      have hu_nothead : u.type ≠ "heading_open" := by
        exact hnohead 0 u (Nat.succ_pos i) rfl
      have hupd : ∀ lh : String, updateHeading u rest lh = lh := by
        intro lh
        unfold updateHeading
        rw [if_neg hu_nothead]
      have hget' : rest.get? i = some t := hget
      have hnohead' : ∀ j v, j < i → rest.get? j = some v → v.type ≠ "heading_open" := by
        intro j v hj hv
        exact hnohead (j + 1) v (Nat.succ_lt_succ hj) hv
      have htake : (u :: rest).take (i + 1) = u :: rest.take i := rfl
      have hrev : ((u :: rest).take (i + 1)).reverse ++ prev = (rest.take i).reverse ++ (u :: prev) := by
        rw [htake, List.reverse_cons, List.append_assoc]
        rfl
      by_cases hf : u.type = "fence"
      · by_cases hc : u.content = ""
        · have hnone : extractSnippetFromToken u prev (updateHeading u rest "") count fp = none := by
            rw [extractSnippetFromToken, if_pos hc]
          rw [extractGo, if_pos hf, hnone, hupd]
          have hcount : nonEmptyFenceCount ((u :: rest).take (i + 1)) = nonEmptyFenceCount (rest.take i) := by
            rw [htake]
            unfold nonEmptyFenceCount
            rw [List.filter_cons]
            have : decide (u.type = "fence" ∧ u.content ≠ "") = false := by
              simp [hc]
            rw [this]
            simp
          rw [hcount, hrev]
          exact ih (u :: prev) count i t hget' htype hcontent hnohead'
        · have hsome : ∃ s, extractSnippetFromToken u prev (updateHeading u rest "") count fp = some s := by
            rw [extractSnippetFromToken, if_neg hc]
            exact ⟨_, rfl⟩
          obtain ⟨s, hs⟩ := hsome
          rw [extractGo, if_pos hf, hs, hupd]
          have hcount : nonEmptyFenceCount ((u :: rest).take (i + 1)) = nonEmptyFenceCount (rest.take i) + 1 := by
            rw [htake]
            unfold nonEmptyFenceCount
            rw [List.filter_cons]
            have : decide (u.type = "fence" ∧ u.content ≠ "") = true := by
              simp [hf, hc]
            rw [this]
            rfl
          rw [hcount, hrev]
          have := ih (u :: prev) (count + 1) i t hget' htype hcontent hnohead'
          simpa [Nat.add_assoc, Nat.add_comm 1 (nonEmptyFenceCount (rest.take i))] using this
      · rw [extractGo, if_neg hf, hupd]
        have hcount : nonEmptyFenceCount ((u :: rest).take (i + 1)) = nonEmptyFenceCount (rest.take i) := by
          rw [htake]
          unfold nonEmptyFenceCount
          rw [List.filter_cons]
          have : decide (u.type = "fence" ∧ u.content ≠ "") = false := by
            simp [hf]
          rw [this]
          simp
        rw [hcount, hrev]
        exact ih (u :: prev) count i t hget' htype hcontent hnohead'

/-- Every snippet produced by the loop comes from a fence token of the
remaining stream, extracted against the reversed prefix before that fence. -/
theorem extractGo_mem_source (fp : String) :
    ∀ (rest prev : List Token) (lh : String) (c : Nat) (s : Snippet),
    s ∈ extractGo fp prev rest lh c →
    ∃ i t, rest.get? i = some t ∧ t.type = "fence" ∧
      ∃ lh' c', extractSnippetFromToken t ((rest.take i).reverse ++ prev) lh' c' fp = some s := by
  intro rest
  induction rest with
  | nil =>
    intro prev lh c s hmem
    simp [extractGo] at hmem
  | cons u rest ih =>
    intro prev lh c s hmem
    have hlift : ∀ (s : Snippet),
        (∃ i t, rest.get? i = some t ∧ t.type = "fence" ∧
          ∃ lh' c', extractSnippetFromToken t ((rest.take i).reverse ++ (u :: prev)) lh' c' fp = some s) →
        ∃ i t, (u :: rest).get? i = some t ∧ t.type = "fence" ∧
          ∃ lh' c', extractSnippetFromToken t (((u :: rest).take i).reverse ++ prev) lh' c' fp = some s := by
      intro s' ⟨i, t, hget, htype, lh', c', hs⟩
      refine ⟨i + 1, t, hget, htype, lh', c', ?_⟩
      have : (((u :: rest).take (i + 1)).reverse ++ prev) = (rest.take i).reverse ++ (u :: prev) := by
        rw [show (u :: rest).take (i + 1) = u :: rest.take i from rfl, List.reverse_cons, List.append_assoc]
        rfl
      rw [this]
      exact hs
    by_cases hf : u.type = "fence"
    · rw [extractGo, if_pos hf] at hmem
      cases hs : extractSnippetFromToken u prev (updateHeading u rest lh) c fp with
      | none =>
        rw [hs] at hmem
        exact hlift s (ih (u :: prev) _ _ s hmem)
      | some s0 =>
        rw [hs] at hmem
        rcases List.mem_cons.mp hmem with hmem | hmem
        · subst hmem
          exact ⟨0, u, rfl, hf, updateHeading u rest lh, c, hs⟩
        · exact hlift s (ih (u :: prev) _ _ s hmem)
    · rw [extractGo, if_neg hf] at hmem
      exact hlift s (ih (u :: prev) _ _ s hmem)

/-! ## Path model

Model of the Node `path` functions the code uses, for `/`-separated paths:
`path.join(a, b)`, `path.dirname(p)`, `path.basename(p)` and
`path.basename(p, ext)` (the extension is stripped only when it is a proper
suffix of the base name). -/

def joinPath (a b : String) : String := a ++ "/" ++ b

/-- Split a character list at every `/` (always returns at least one
segment). -/
def splitOnSlash : List Char → List (List Char)
  | [] => [[]]
  | c :: t =>
    match splitOnSlash t with
    | [] => [[c]]
    | h :: rest => if c = '/' then [] :: h :: rest else (c :: h) :: rest

def pathSegments (p : String) : List String :=
  (splitOnSlash p.data).map (fun l => ⟨l⟩)

def basename (p : String) : String :=
  ((pathSegments p).getLast?).getD ""

def dirname (p : String) : String :=
  if (pathSegments p).length ≤ 1 then "."
  else
    let d := joinWith "/" (pathSegments p).dropLast
    if d = "" then "/" else d

def strEndsWith (s post : String) : Bool :=
  post.data.isSuffixOf s.data

def basenameNoExt (p ext : String) : String :=
  let b := basename p
  if strEndsWith b ext ∧ b ≠ ext then ⟨b.data.take (b.data.length - ext.data.length)⟩ else b

/-! ## Package-name parsing (`src/utils/source-url-manager.js`)

`getScopeAndName` matches the package name against
`^(@[^/]+)\/(.+)$`: a leading `@`, at least one non-slash character, the
first `/`, and a non-empty remainder that — `.` not matching line
terminators — may not contain a newline. -/

structure ScopeName where
  scope : Option String
  name : String
deriving Repr, DecidableEq

/-- Split a character list at its first `/`. -/
def breakAtSlash : List Char → Option (List Char × List Char)
  | [] => none
  | c :: t =>
    if c = '/' then some ([], t)
    else (breakAtSlash t).map (fun p => (c :: p.1, p.2))

def getScopeAndName (pkgName : String) : ScopeName :=
  if pkgName = "" then { scope := none, name := "" }
  else
    match pkgName.data with
    | [] => { scope := none, name := pkgName }
    | c :: restChars =>
      if c = '@' then
        match breakAtSlash restChars with
        | some (scopeChars, nameChars) =>
          if scopeChars ≠ [] ∧ nameChars ≠ [] ∧ '\n' ∉ nameChars then
            { scope := some ⟨'@' :: scopeChars⟩, name := ⟨nameChars⟩ }
          else { scope := none, name := pkgName }
        | none => { scope := none, name := pkgName }
      else { scope := none, name := pkgName }

theorem breakAtSlash_append (a b : List Char) (ha : '/' ∉ a) :
    breakAtSlash (a ++ '/' :: b) = some (a, b) := by
  induction a with
  | nil => rfl
  | cons c t ih =>
    have hc : c ≠ '/' := by
      intro h
      exact ha (h ▸ List.mem_cons_self c t)
    have ht : '/' ∉ t := fun h => ha (List.mem_cons_of_mem c h)
    show breakAtSlash (c :: (t ++ '/' :: b)) = some (c :: t, b)
    rw [breakAtSlash, if_neg hc, ih ht]
    rfl

theorem breakAtSlash_none (a : List Char) (ha : '/' ∉ a) :
    breakAtSlash a = none := by
  induction a with
  | nil => rfl
  | cons c t ih =>
    have hc : c ≠ '/' := by
      intro h
      exact ha (h ▸ List.mem_cons_self c t)
    have ht : '/' ∉ t := fun h => ha (List.mem_cons_of_mem c h)
    rw [breakAtSlash, if_neg hc, ih ht]
    rfl

theorem getScopeAndName_scoped (sc nm : String)
    (hsc : sc ≠ "") (hscs : '/' ∉ sc.data) (hnm : nm ≠ "") (hnmn : '\n' ∉ nm.data) :
    getScopeAndName ("@" ++ sc ++ "/" ++ nm) = { scope := some ("@" ++ sc), name := nm } := by
  have hdata : ("@" ++ sc ++ "/" ++ nm).data = '@' :: (sc.data ++ '/' :: nm.data) := by
    rw [String.data_append, String.data_append, String.data_append]
    show ['@'] ++ sc.data ++ ['/'] ++ nm.data = _
    simp
  have hne : ("@" ++ sc ++ "/" ++ nm) ≠ "" := by
    intro h
    have h2 := congrArg String.data h
    rw [hdata] at h2
    cases h2
  have hscd : sc.data ≠ [] := fun h => hsc (String.ext h)
  have hnmd : nm.data ≠ [] := fun h => hnm (String.ext h)
  have h1 : ("@" ++ sc) = (⟨'@' :: sc.data⟩ : String) := by
    apply String.ext
    rw [String.data_append]
    rfl
  have hbreak := breakAtSlash_append sc.data nm.data hscs
  simp only [getScopeAndName, if_neg hne, hdata, hbreak]
  rw [if_pos (show sc.data ≠ [] ∧ nm.data ≠ [] ∧ '\n' ∉ nm.data from ⟨hscd, hnmd, hnmn⟩)]
  rw [h1]
  simp

theorem getScopeAndName_unscoped (nm : String) (h : '/' ∉ nm.data) :
    getScopeAndName nm = { scope := none, name := nm } := by
  by_cases hne : nm = ""
  · rw [hne]
    rfl
  · rw [getScopeAndName, if_neg hne]
    cases hd : nm.data with
    | nil => rfl
    | cons c rest =>
      have hrest : '/' ∉ rest := by
        intro hmem
        exact h (hd ▸ List.mem_cons_of_mem _ hmem)
      by_cases hc : c = '@'
      · subst hc
        simp [breakAtSlash_none rest hrest]
      · simp [hc]

/-! ## External collaborators

Filesystem reads, the markdown-it tokenizer and the source-URL resolution
(`getSourceUrl`, which consults an environment variable and `node_modules`
metadata) are external to the verified core; they are modelled as an
explicit environment of functions. `readPackageJsonName p` is the `name`
field of the JSON at path `p` (`none` models a missing file, a parse
failure, or an absent `name` field — `readPackageJson` returns `null` in
all those cases). -/

structure Env where
  readPackageJsonName : String → Option String
  sourceUrl : String → String
  parse : String → List Token
  readFile : String → String

structure OutputInfo where
  outputPath : String
  outputDir : String
  outputFileName : String
  atTag : String
  source : String
deriving Repr, DecidableEq

/-! ## Output formatter (`src/formatters/output-formatter.js`) and
`formatSnippet` (`src/processors/snippet-extractor.js`) -/

/-- Options reaching the formatter/processors (the result of
`normalizeFormatOrOptions`). -/
structure ConvOptions where
  format : String := "md"
  alwaysApply : Option Bool := none
  applyGlob : Option String := none
deriving Repr, DecidableEq

def formatSnippet (snippet : Snippet) : String :=
  if snippet.title = "" ∨ snippet.code = "" then ""
  else
    joinWith "\n"
      [ "TITLE: " ++ snippet.title
      , "DESCRIPTION: " ++ snippet.description
      , "SOURCE: " ++ snippet.source
      , "LANGUAGE: " ++ (if snippet.language = "" then "text" else snippet.language)
      , "CODE:"
      , "```" ++ (if snippet.language = "" then "text" else snippet.language)
      , snippet.code
      , "```"
      , ""
      , "----------------------------------------" ]

def generateAtTag (atTag : String) : String :=
  if atTag = "" then ""
  else if atTag.data.contains '@' then atTag
  else "@" ++ atTag

def generateMdcFrontmatter (outputInfo : OutputInfo) (options : ConvOptions) : String :=
  let description := if outputInfo.outputFileName = "" then "Generated LLM rules" else outputInfo.outputFileName
  let ruleLine :=
    match options.applyGlob with
    | some g =>
      if g ≠ "" then "glob: \"" ++ g ++ "\""
      else if options.alwaysApply = some false then "alwaysApply: false" else "alwaysApply: true"
    | none =>
      if options.alwaysApply = some false then "alwaysApply: false" else "alwaysApply: true"
  joinWith "\n" ["---", "description: " ++ description, ruleLine, "---", ""]

def generateOutputContent (snippets : List Snippet) (outputInfo : OutputInfo)
    (format : String) (options : ConvOptions) : String :=
  if snippets = [] then ""
  else
    (if format = "mdc" then generateMdcFrontmatter outputInfo options else "")
      ++ joinWith "\n\n" (snippets.map formatSnippet)
      ++ "\n" ++ generateAtTag outputInfo.atTag ++ "\n"

def getOutputExtension (format : String) : String :=
  if format = "mdc" then ".mdc" else ".md"

/-! ## Markdown processor (`src/processors/markdown-processor.js`)

File writes are modelled by the returned `(OutputInfo, content)` pair; the
`createDirectory` calls only affect the filesystem and are dropped. -/

def isPackageReadme (filePath : String) : Bool :=
  basename filePath == "README.md"

def extractPackageInfo (env : Env) (filePath : String) : Option ScopeName :=
  let packageDir := dirname filePath
  let packageJsonPath := joinPath packageDir "package.json"
  match env.readPackageJsonName packageJsonPath with
  | none => none
  | some name => if name = "" then none else some (getScopeAndName name)

def determineOutputInfo (env : Env) (filePath rulesDir format : String) : OutputInfo :=
  let fileNameWithoutExt := basenameNoExt filePath ".md"
  let base :=
    if isPackageReadme filePath then
      match extractPackageInfo env filePath with
      | some packageInfo =>
        let outputDir :=
          match packageInfo.scope with
          | some sc => joinPath rulesDir sc
          | none => rulesDir
        (packageInfo.name, outputDir, packageInfo.name)
      | none => (fileNameWithoutExt, rulesDir, fileNameWithoutExt)
    else (fileNameWithoutExt, rulesDir, fileNameWithoutExt)
  let outputExt := if format = "mdc" then ".mdc" else ".md"
  { outputPath := joinPath base.2.1 (base.1 ++ outputExt)
    outputDir := base.2.1
    outputFileName := base.1
    atTag := base.2.2
    source := env.sourceUrl filePath }

/-- `processMarkdownFile(filePath, rulesDir, formatOrOptions)`: parse, extract
snippets, and — only when at least one snippet was found — write the output
file. The result is the performed write, `none` when nothing is written
(the `!filePath || !rulesDir` argument guard throws before any work and is
outside this model). -/
def processMarkdownFile (env : Env) (filePath rulesDir : String)
    (options : ConvOptions) : Option (OutputInfo × String) :=
  let tokens := env.parse (env.readFile filePath)
  let snippets := extractSnippetsFromTokens tokens filePath
  if snippets = [] then none
  else
    let outputInfo := determineOutputInfo env filePath rulesDir options.format
    some (outputInfo, generateOutputContent snippets outputInfo options.format options)

structure PackageOutputInfo where
  packageDir : String
  packageName : String
  packageScope : Option String
  format : String
deriving Repr, DecidableEq

def determinePackageOutputInfo (packageJsonName : String) (rulesDir format : String) :
    PackageOutputInfo :=
  let packageInfo := getScopeAndName packageJsonName
  let packageDir :=
    match packageInfo.scope with
    | some sc => joinPath (joinPath rulesDir sc) packageInfo.name
    | none => joinPath rulesDir packageInfo.name
  { packageDir := packageDir
    packageName := packageInfo.name
    packageScope := packageInfo.scope
    format := format }

def processFileInPackageDirectory (env : Env) (filePath : String)
    (packageOutputInfo : PackageOutputInfo) (options : ConvOptions) :
    Option (OutputInfo × String) :=
  let tokens := env.parse (env.readFile filePath)
  let snippets := extractSnippetsFromTokens tokens filePath
  if snippets = [] then none
  else
    let format := options.format
    let fileNameWithoutExt := basenameNoExt filePath ".md"
    let outputExt := if format = "mdc" then ".mdc" else ".md"
    let outputPath := joinPath packageOutputInfo.packageDir (fileNameWithoutExt ++ outputExt)
    let outputInfo : OutputInfo :=
      { outputPath := outputPath
        outputDir := packageOutputInfo.packageDir
        outputFileName := fileNameWithoutExt
        atTag := fileNameWithoutExt
        source := env.sourceUrl filePath }
    some (outputInfo, generateOutputContent snippets outputInfo format options)

/-! ## Package grouper (`src/utils/package-grouper.js`) -/

structure PackageContext where
  packageJsonPath : String
  packageName : String
  packageDir : String
deriving Repr, DecidableEq

/-- The `while (depth < maxDepth)` walk of `checkParentDirectories`, with the
remaining depth as the recursion counter (the source counts `depth` up to
the fixed bound 3). -/
def checkParentDirectories (env : Env) : String → Nat → Option PackageContext
  | _, 0 => none
  | currentDir, maxDepth + 1 =>
    let parentDir := dirname currentDir
    if parentDir = currentDir then none
    else
      match env.readPackageJsonName (joinPath parentDir "package.json") with
      | some name =>
        if name ≠ "" then
          some { packageJsonPath := joinPath parentDir "package.json"
                 packageName := name
                 packageDir := parentDir }
        else checkParentDirectories env parentDir maxDepth
      | none => checkParentDirectories env parentDir maxDepth

def getPackageContext (env : Env) (filePath : String) : Option PackageContext :=
  let fileDir := dirname filePath
  let packageJsonPath := joinPath fileDir "package.json"
  match env.readPackageJsonName packageJsonPath with
  | some name =>
    if name ≠ "" then
      some { packageJsonPath := packageJsonPath, packageName := name, packageDir := fileDir }
    else checkParentDirectories env fileDir 3
  | none => checkParentDirectories env fileDir 3

structure PackageGroup where
  packageInfo : PackageContext
  files : List String
deriving Repr, DecidableEq

/-- `packageGroups.get(key).files.push(filePath)` on an insertion-ordered map,
keyed by the manifest path: append to the first group with this key,
or create a new group at the end. -/
def addToGroups (groups : List PackageGroup) (filePath : String) (ctx : PackageContext) :
    List PackageGroup :=
  match groups with
  | [] => [{ packageInfo := ctx, files := [filePath] }]
  | g :: gs =>
    if g.packageInfo.packageJsonPath = ctx.packageJsonPath then
      { packageInfo := g.packageInfo, files := g.files ++ [filePath] } :: gs
    else g :: addToGroups gs filePath ctx

/-- The loop of `groupFilesByPackage` (a JavaScript `Map` preserves insertion
order, so `Array.from(map.values())` is the first-seen group order). -/
def groupGo (env : Env) : List String → List PackageGroup → List String →
    List PackageGroup × List String
  | [], groups, standalone => (groups, standalone)
  | fp :: rest, groups, standalone =>
    match getPackageContext env fp with
    | some ctx => groupGo env rest (addToGroups groups fp ctx) standalone
    | none => groupGo env rest groups (standalone ++ [fp])

def groupFilesByPackage (env : Env) (markdownFiles : List String) :
    List PackageGroup × List String :=
  groupGo env markdownFiles [] []

def hasMultipleMarkdownFiles (packageGroup : PackageGroup) : Bool :=
  packageGroup.files.length > 1

/-- `processPackageMarkdownFiles(packageGroup, rulesDir, formatOrOptions)`:
the list of file writes performed. A single-file group falls back to
`processMarkdownFile` on `files[0]`; a multi-file group writes each file
with its own base name into the package directory. (On an empty `files`
list the source would fault reading `files[0]`; the model performs no
write.) -/
def processPackageMarkdownFiles (env : Env) (packageGroup : PackageGroup)
    (rulesDir : String) (options : ConvOptions) : List (OutputInfo × String) :=
  if hasMultipleMarkdownFiles packageGroup then
    let packageOutputInfo :=
      determinePackageOutputInfo packageGroup.packageInfo.packageName rulesDir options.format
    packageGroup.files.filterMap
      (fun filePath => processFileInPackageDirectory env filePath packageOutputInfo options)
  else
    match packageGroup.files with
    | [] => []
    | singleFile :: _ => (processMarkdownFile env singleFile rulesDir options).toList

/-! ## Conversion processor (`src/core/conversion-processor.js`, grouping
version)

Whether processing one package group or one standalone file succeeds or
throws depends on the filesystem (unreadable inputs, unwritable outputs);
the two processing calls are abstracted as `Except`-valued oracles, so that
the accounting of the `try`/`catch` loops can be verified for every possible
pattern of failures. -/

def isOkE (e : Except String Unit) : Bool :=
  match e with
  | .ok _ => true
  | .error _ => false

/-- The package-group loop of `processGroupedFiles` (per-group `try`/`catch`,
counting `packageGroup.files.length` towards processed or errors). -/
def processGroupsLoop (procGroup : PackageGroup → Except String Unit) :
    List PackageGroup → Nat × Nat → Nat × Nat
  | [], acc => acc
  | g :: gs, acc =>
    match procGroup g with
    | .ok _ => processGroupsLoop procGroup gs (acc.1 + g.files.length, acc.2)
    | .error _ => processGroupsLoop procGroup gs (acc.1, acc.2 + g.files.length)

/-- The standalone-file loop of `processGroupedFiles` (per-file
`try`/`catch`). -/
def processFilesLoop (procFile : String → Except String Unit) :
    List String → Nat × Nat → Nat × Nat
  | [], acc => acc
  | fp :: fps, acc =>
    match procFile fp with
    | .ok _ => processFilesLoop procFile fps (acc.1 + 1, acc.2)
    | .error _ => processFilesLoop procFile fps (acc.1, acc.2 + 1)

def processGroupedFiles (procGroup : PackageGroup → Except String Unit)
    (procFile : String → Except String Unit)
    (packageGroups : List PackageGroup) (standaloneFiles : List String) : Nat × Nat :=
  processFilesLoop procFile standaloneFiles (processGroupsLoop procGroup packageGroups (0, 0))

/-- The tail of `processConversion` after grouping: run the counting loops
and, when any errors accumulated, throw
`Conversion failed with N errors`; otherwise report the results. -/
def processConversionOutcome (procGroup : PackageGroup → Except String Unit)
    (procFile : String → Except String Unit)
    (packageGroups : List PackageGroup) (standaloneFiles : List String) :
    Except String (Nat × Nat) :=
  let results := processGroupedFiles procGroup procFile packageGroups standaloneFiles
  if results.2 > 0 then
    .error ("Conversion failed with " ++ toString results.2 ++ " errors")
  else .ok results

/-! ## Option validation (`src/cli/option-validator.js`) -/

/-- Raw CLI options as commander delivers them (`none` models an absent /
`undefined` option; `--no-always-apply` arrives as `some false`). -/
structure RawOptions where
  format : Option String := none
  exclude : Option String := none
  sourceUrl : Option String := none
  alwaysApply : Option Bool := none
  applyGlob : Option String := none
deriving Repr, DecidableEq

structure ValidatedOptions where
  format : String
  excludeDirs : List String
  sourceUrl : Option String
  alwaysApply : Option Bool
  applyGlob : Option String
deriving Repr, DecidableEq

def DEFAULT_EXCLUDE_DIRS : List String :=
  ["images", "node_modules", "dist", "build", "coverage", "test", "cjs", "generator", "lib", "src"]

def VALID_FORMATS : List String := ["md", "mdc"]

def parseExcludeDirs (excludeString : String) : List String :=
  if excludeString = "" then DEFAULT_EXCLUDE_DIRS
  else
    let parsed := ((excludeString.splitOn ",").map jsTrim).filter (fun d => d ≠ "")
    if parsed = [] then DEFAULT_EXCLUDE_DIRS else parsed

/-- `validateSourceUrl(url)`: `null` for a falsy argument, an error unless
the URL starts with `http://` or `https://`, otherwise the URL with a
trailing `/` ensured. -/
def validateSourceUrl (url : String) : Except String (Option String) :=
  if url = "" then .ok none
  else if ¬ (url.startsWith "http://" ∨ url.startsWith "https://") then
    .error ("Invalid source URL: " ++ url ++ ". Must start with http:// or https://")
  else .ok (some (if url.endsWith "/" then url else url ++ "/"))

/-- The format block of `validateOptions`: a falsy format keeps the default
`"md"`, an invalid one throws. -/
def validateFormatPart (options : RawOptions) : Except String String :=
  match options.format with
  | none => .ok "md"
  | some f =>
    if f = "" then .ok "md"
    else if f ∈ VALID_FORMATS then .ok f
    else .error ("Invalid format: " ++ f ++ ". Must be one of: md, mdc")

/-- The source-URL block of `validateOptions`: only a truthy option is
validated. -/
def validateSourceUrlPart (options : RawOptions) : Except String (Option String) :=
  match options.sourceUrl with
  | none => .ok none
  | some u => if u = "" then .ok none else validateSourceUrl u

/-- `validateMdcOptions(options, validated)`: record an explicit
`--always-apply` / `--no-always-apply`, validate a supplied glob (must trim
to a non-empty string), and reject the combination of an explicit
always-apply flag with a (truthy) glob. -/
def validateMdcOptions (options : RawOptions) :
    Except String (Option Bool × Option String) :=
  let alwaysApply : Option Bool :=
    match options.alwaysApply with
    | some true => some true
    | some false => some false
    | none => none
  match options.applyGlob with
  | some g =>
    if jsTrim g = "" then .error "Invalid apply-glob pattern: must be a non-empty string"
    else if alwaysApply ≠ none then
      .error "Cannot use both --always-apply/--no-always-apply and --apply-glob options together"
    else .ok (alwaysApply, some (jsTrim g))
  | none => .ok (alwaysApply, none)

def validateOptions (options : RawOptions) : Except String ValidatedOptions :=
  match validateFormatPart options with
  | .error e => .error e
  | .ok format =>
    let excludeDirs :=
      match options.exclude with
      | none => DEFAULT_EXCLUDE_DIRS
      | some e => if e = "" then DEFAULT_EXCLUDE_DIRS else parseExcludeDirs e
    match validateSourceUrlPart options with
    | .error e => .error e
    | .ok sourceUrl =>
      match validateMdcOptions options with
      | .error e => .error e
      | .ok (alwaysApply, applyGlob) =>
        .ok { format := format
              excludeDirs := excludeDirs
              sourceUrl := sourceUrl
              alwaysApply := alwaysApply
              applyGlob := applyGlob }

/-- `handleConvertCommand(dest, dirs, options)` from
`src/cli/command-handler.js`: validate first, and only then run the
conversion (abstracted as `processRun`; the `catch` block logs and
rethrows, so outcomes are unchanged). -/
def handleConvertCommand (processRun : String → List String → ValidatedOptions → Except String Unit)
    (dest : String) (dirs : List String) (options : RawOptions) : Except String Unit :=
  match validateOptions options with
  | .error e => .error e
  | .ok validatedOptions => processRun dest dirs validatedOptions

/-! # Claims -/

/-! ## C1 — description backward scan -/

theorem extractSnippetFromToken_description {t : Token} {prev : List Token}
    {lh : String} {c : Nat} {fp : String} {s : Snippet}
    (h : extractSnippetFromToken t prev lh c fp = some s) :
    s.description = jsTrim (descLoop prev) := by
  unfold extractSnippetFromToken at h
  by_cases hc : t.content = ""
  · rw [if_pos hc] at h
    cases h
  · rw [if_neg hc] at h
    cases h
    rfl

/-- C1: the description attached to an extracted snippet is exactly the
trimmed content of the first non-empty inline token found walking backward
from its fence (`descriptionSpec` of the reversed prefix before the fence),
and that backward scan yields the empty string as soon as a heading-open or
another fence is encountered before any non-empty inline text (that stop
behaviour is the `find?`-based definition of `descriptionSpec`). Stated both
for `extractSnippetDescription` itself and for the description field of
every snippet the extractor produces. -/
theorem snippet_description_backward_scan :
    (∀ (tokens : List Token) (i : Nat),
      extractSnippetDescription tokens i = descriptionSpec (tokens.take i).reverse) ∧
    (∀ (tokens : List Token) (fp : String) (s : Snippet),
      s ∈ extractSnippetsFromTokens tokens fp →
      ∃ i t, tokens.get? i = some t ∧ t.type = "fence" ∧
        s.description = descriptionSpec (tokens.take i).reverse) := by
  constructor
  · intro tokens i
    unfold extractSnippetDescription
    exact descLoop_eq_descriptionSpec _
  · intro tokens fp s hmem
    obtain ⟨i, t, hget, htype, lh', c', hs⟩ :=
      extractGo_mem_source fp tokens [] "" 1 s hmem
    refine ⟨i, t, hget, htype, ?_⟩
    rw [List.append_nil] at hs
    rw [extractSnippetFromToken_description hs, descLoop_eq_descriptionSpec,
      jsTrim_descriptionSpec]

theorem snippet_description_backward_scan_witness :
    ({ title := "Snippet 1", description := "A desc", source := "t.md",
       language := "js", code := "code" } : Snippet) ∈
      extractSnippetsFromTokens
        [⟨"paragraph_open", "", ""⟩, ⟨"inline", "A desc", ""⟩,
         ⟨"paragraph_close", "", ""⟩, ⟨"fence", "code", "js"⟩] "t.md" ∧
    (∃ i t,
      ([⟨"paragraph_open", "", ""⟩, ⟨"inline", "A desc", ""⟩,
        ⟨"paragraph_close", "", ""⟩, ⟨"fence", "code", "js"⟩] : List Token).get? i = some t ∧
      t.type = "fence" ∧
      ({ title := "Snippet 1", description := "A desc", source := "t.md",
         language := "js", code := "code" } : Snippet).description =
        descriptionSpec (([⟨"paragraph_open", "", ""⟩, ⟨"inline", "A desc", ""⟩,
          ⟨"paragraph_close", "", ""⟩, ⟨"fence", "code", "js"⟩] : List Token).take i).reverse) :=
  ⟨by decide, snippet_description_backward_scan.2 _ "t.md" _ (by decide)⟩

/-! ## C2 — positional snippet titles -/

/-- C2 counterexample: in the stream `[fence with empty content, fence "x"]`
no heading-open occurs, and the second fence is the 2nd code-block token of
the stream; the claim therefore predicts an extracted snippet titled
`"Snippet 2"`. But the empty fence yields no snippet and does not advance
the counter, so the only extracted snippet (the one of the second fence) is
titled `"Snippet 1"`. -/
theorem snippet_numbering_counterexample :
    (extractSnippetsFromTokens [⟨"fence", "", "js"⟩, ⟨"fence", "x", "js"⟩] "doc.md").map
        Snippet.title = ["Snippet 1"] ∧
    (([⟨"fence", "", "js"⟩, ⟨"fence", "x", "js"⟩] : List Token).filter
        (fun t => t.type == "fence")).length = 2 ∧
    (([⟨"fence", "", "js"⟩, ⟨"fence", "x", "js"⟩] : List Token).filter
        (fun t => t.type == "heading_open")).length = 0 := by
  decide

/-- C2 (amended): for every token stream and every fence token with
*non-empty content* that has no heading-open anywhere earlier in the
stream, the snippet extracted for it is titled `"Snippet N"` where `N` is
its 1-based position among the code-block tokens *with non-empty content*
(the ones that yield snippets); its snippet sits at output position
`N - 1`. -/
theorem snippet_numbering_amended :
    ∀ (tokens : List Token) (fp : String) (i : Nat) (t : Token),
    tokens.get? i = some t → t.type = "fence" → t.content ≠ "" →
    (∀ j u, j < i → tokens.get? j = some u → u.type ≠ "heading_open") →
    ∃ s, (extractSnippetsFromTokens tokens fp).get? (nonEmptyFenceCount (tokens.take i)) = some s ∧
      s.title = "Snippet " ++ toString (nonEmptyFenceCount (tokens.take i) + 1) := by
  intro tokens fp i t hget htype hcontent hnohead
  have h := extractGo_get_fence fp tokens [] 1 i t hget htype hcontent hnohead
  rw [List.append_nil] at h
  have hform : extractSnippetFromToken t (tokens.take i).reverse ""
      (1 + nonEmptyFenceCount (tokens.take i)) fp =
      some { title := jsTrim ("Snippet " ++ toString (1 + nonEmptyFenceCount (tokens.take i)))
             description := jsTrim (descLoop (tokens.take i).reverse)
             source := fp
             language := jsTrim (if t.info = "" then "text" else t.info)
             code := jsTrim t.content } := by
    unfold extractSnippetFromToken
    rw [if_neg hcontent]
    simp
  rw [hform] at h
  refine ⟨_, h, ?_⟩
  rw [jsTrim_snippetN]
  rw [Nat.add_comm]

theorem snippet_numbering_amended_witness :
    (([⟨"paragraph_open", "", ""⟩, ⟨"fence", "a", ""⟩, ⟨"fence", "b", ""⟩] : List Token).get? 2 =
      some ⟨"fence", "b", ""⟩) ∧
    (⟨"fence", "b", ""⟩ : Token).type = "fence" ∧
    (⟨"fence", "b", ""⟩ : Token).content ≠ "" ∧
    (∃ s, (extractSnippetsFromTokens
        [⟨"paragraph_open", "", ""⟩, ⟨"fence", "a", ""⟩, ⟨"fence", "b", ""⟩] "w.md").get?
        (nonEmptyFenceCount (([⟨"paragraph_open", "", ""⟩, ⟨"fence", "a", ""⟩,
          ⟨"fence", "b", ""⟩] : List Token).take 2)) = some s ∧
      s.title = "Snippet " ++ toString (nonEmptyFenceCount
        (([⟨"paragraph_open", "", ""⟩, ⟨"fence", "a", ""⟩,
          ⟨"fence", "b", ""⟩] : List Token).take 2) + 1)) :=
  ⟨by decide, by decide, by decide,
    snippet_numbering_amended _ "w.md" 2 ⟨"fence", "b", ""⟩ (by decide) (by decide) (by decide)
      (by
        intro j u hj hu
        interval_cases j
        · cases hu; decide
        · cases hu; decide)⟩

/-! ## C3 — empty fences at extraction time -/

/-- C3 counterexample: a stream holding a single fence token with empty raw
content yields no snippet at all — `extractSnippetFromToken` returns null
for a falsy `content` — where the claim predicts a snippet with empty code
surviving until formatting. -/
theorem empty_fence_counterexample :
    extractSnippetsFromTokens [⟨"fence", "", "py"⟩] "a.md" = [] := by
  decide

/-- C3 (amended): a fence token whose raw content is empty is *dropped* at
extraction time (`extractSnippetFromToken` returns no snippet for it), so
the extracted snippets are exactly the fences with non-empty content;
snippets missing title or code are additionally dropped at formatting
time. -/
theorem empty_fence_amended :
    (∀ (t : Token) (prev : List Token) (lh : String) (c : Nat) (fp : String),
      t.content = "" → extractSnippetFromToken t prev lh c fp = none) ∧
    (∀ (tokens : List Token) (fp : String),
      (extractSnippetsFromTokens tokens fp).length = nonEmptyFenceCount tokens) := by
  constructor
  · intro t prev lh c fp hc
    unfold extractSnippetFromToken
    rw [if_pos hc]
  · intro tokens fp
    exact extractGo_length fp tokens [] "" 1

theorem empty_fence_amended_witness :
    (⟨"fence", "", "py"⟩ : Token).content = "" ∧
    extractSnippetFromToken ⟨"fence", "", "py"⟩ [] "" 1 "a.md" = none ∧
    (extractSnippetsFromTokens [⟨"fence", "", "py"⟩, ⟨"fence", "z", ""⟩] "b.md").length =
      nonEmptyFenceCount [⟨"fence", "", "py"⟩, ⟨"fence", "z", ""⟩] :=
  ⟨rfl, empty_fence_amended.1 _ [] "" 1 "a.md" rfl, empty_fence_amended.2 _ "b.md"⟩

/-! ## Lemmas about `joinWith` -/

theorem joinWith_append (sep : String) : ∀ (A B : List String), A ≠ [] → B ≠ [] →
    joinWith sep (A ++ B) = joinWith sep A ++ sep ++ joinWith sep B := by
  intro A
  induction A with
  | nil => intro B h hB; exact absurd rfl h
  | cons x xs ih =>
    intro B hA hB
    cases xs with
    | nil =>
      cases B with
      | nil => exact absurd rfl hB
      | cons y ys => rfl
    | cons x' xs' =>
      have h1 : joinWith sep ((x :: x' :: xs') ++ B) =
          x ++ sep ++ joinWith sep ((x' :: xs') ++ B) := rfl
      rw [h1, ih B (List.cons_ne_nil _ _) hB,
        show joinWith sep (x :: x' :: xs') = x ++ sep ++ joinWith sep (x' :: xs') from rfl]
      simp [String.append_assoc]

/-! ## C4 — README output naming -/

/-- C4: for a file whose base name is exactly `README.md` (case-sensitive):
if its directory's manifest name parses as `@scope/name` (per §4.2 the
recorded scope keeps the `@`), the output goes to
`<dest>/<@scope>/<name><ext>` with output name and tag `name`, whose
rendered trailing at-tag is `@name`; if the manifest name has no `/`, the
output is `<dest>/<name><ext>`; any other file — non-README base name, or
no resolvable package — keeps its own base name (without `.md`) as output
name and tag, directly under `<dest>`. -/
theorem readme_package_naming :
    (∀ (env : Env) (fp dest format sc nm : String),
      basename fp = "README.md" →
      env.readPackageJsonName (joinPath (dirname fp) "package.json") =
        some ("@" ++ sc ++ "/" ++ nm) →
      sc ≠ "" → '/' ∉ sc.data → nm ≠ "" → '\n' ∉ nm.data →
      (determineOutputInfo env fp dest format).outputPath =
          joinPath (joinPath dest ("@" ++ sc)) (nm ++ getOutputExtension format) ∧
        (determineOutputInfo env fp dest format).outputDir = joinPath dest ("@" ++ sc) ∧
        (determineOutputInfo env fp dest format).outputFileName = nm ∧
        (determineOutputInfo env fp dest format).atTag = nm ∧
        ('@' ∉ nm.data → generateAtTag (determineOutputInfo env fp dest format).atTag = "@" ++ nm)) ∧
    (∀ (env : Env) (fp dest format nm : String),
      basename fp = "README.md" →
      env.readPackageJsonName (joinPath (dirname fp) "package.json") = some nm →
      nm ≠ "" → '/' ∉ nm.data →
      (determineOutputInfo env fp dest format).outputPath =
          joinPath dest (nm ++ getOutputExtension format) ∧
        (determineOutputInfo env fp dest format).outputDir = dest ∧
        (determineOutputInfo env fp dest format).outputFileName = nm ∧
        (determineOutputInfo env fp dest format).atTag = nm) ∧
    (∀ (env : Env) (fp dest format : String),
      (basename fp ≠ "README.md" ∨ extractPackageInfo env fp = none) →
      (determineOutputInfo env fp dest format).outputPath =
          joinPath dest (basenameNoExt fp ".md" ++ getOutputExtension format) ∧
        (determineOutputInfo env fp dest format).outputDir = dest ∧
        (determineOutputInfo env fp dest format).outputFileName = basenameNoExt fp ".md" ∧
        (determineOutputInfo env fp dest format).atTag = basenameNoExt fp ".md") := by
  refine ⟨?_, ?_, ?_⟩
  · intro env fp dest format sc nm hbase hpkg hsc hscs hnm hnmn
    have hname_ne : ("@" ++ sc ++ "/" ++ nm) ≠ "" := by
      intro h
      have h2 := congrArg String.data h
      rw [String.data_append, String.data_append, String.data_append] at h2
      simp at h2
    have hpi : extractPackageInfo env fp = some { scope := some ("@" ++ sc), name := nm } := by
      simp only [extractPackageInfo]
      rw [hpkg]
      simp only [if_neg hname_ne]
      rw [getScopeAndName_scoped sc nm hsc hscs hnm hnmn]
    have hread : isPackageReadme fp = true := by
      simp [isPackageReadme, hbase]
    have hout : determineOutputInfo env fp dest format =
        { outputPath := joinPath (joinPath dest ("@" ++ sc))
            (nm ++ (if format = "mdc" then ".mdc" else ".md"))
          outputDir := joinPath dest ("@" ++ sc)
          outputFileName := nm
          atTag := nm
          source := env.sourceUrl fp } := by
      unfold determineOutputInfo
      rw [hpi]
      simp [hread]
    rw [hout]
    refine ⟨rfl, rfl, rfl, rfl, ?_⟩
    intro hat
    have hcont : nm.data.contains '@' = false := by simpa using hat
    show generateAtTag nm = "@" ++ nm
    unfold generateAtTag
    rw [if_neg hnm, if_neg (show ¬ nm.data.contains '@' = true by rw [hcont]; decide)]
  · intro env fp dest format nm hbase hpkg hnm hnmn
    have hpi : extractPackageInfo env fp = some { scope := none, name := nm } := by
      simp only [extractPackageInfo]
      rw [hpkg]
      simp only [if_neg hnm]
      rw [getScopeAndName_unscoped nm hnmn]
    have hread : isPackageReadme fp = true := by
      simp [isPackageReadme, hbase]
    have hout : determineOutputInfo env fp dest format =
        { outputPath := joinPath dest (nm ++ (if format = "mdc" then ".mdc" else ".md"))
          outputDir := dest
          outputFileName := nm
          atTag := nm
          source := env.sourceUrl fp } := by
      unfold determineOutputInfo
      rw [hpi]
      simp [hread]
    rw [hout]
    exact ⟨rfl, rfl, rfl, rfl⟩
  · intro env fp dest format hother
    have hout : determineOutputInfo env fp dest format =
        { outputPath := joinPath dest
            (basenameNoExt fp ".md" ++ (if format = "mdc" then ".mdc" else ".md"))
          outputDir := dest
          outputFileName := basenameNoExt fp ".md"
          atTag := basenameNoExt fp ".md"
          source := env.sourceUrl fp } := by
      rcases hother with hother | hother
      · have hread : isPackageReadme fp = false := by
          simp only [isPackageReadme]
          exact beq_eq_false_iff_ne.mpr hother
        unfold determineOutputInfo
        rw [hread]
        simp only [Bool.false_eq_true, if_false]
      · unfold determineOutputInfo
        rw [hother]
        cases hread : isPackageReadme fp
        · simp only [Bool.false_eq_true, if_false]
        · simp only [if_true]
    rw [hout]
    exact ⟨rfl, rfl, rfl, rfl⟩

theorem readme_package_naming_witness :
    basename "libs/p/README.md" = "README.md" ∧
    ({ readPackageJsonName := fun p => if p = "libs/p/package.json" then some "@acme/tool" else none
       sourceUrl := fun s => s
       parse := fun _ => []
       readFile := fun _ => "" } : Env).readPackageJsonName
        (joinPath (dirname "libs/p/README.md") "package.json") = some ("@" ++ "acme" ++ "/" ++ "tool") ∧
    ((determineOutputInfo
        { readPackageJsonName := fun p => if p = "libs/p/package.json" then some "@acme/tool" else none
          sourceUrl := fun s => s
          parse := fun _ => []
          readFile := fun _ => "" } "libs/p/README.md" "rules" "md").outputPath =
      joinPath (joinPath "rules" ("@" ++ "acme")) ("tool" ++ getOutputExtension "md") ∧
    (determineOutputInfo
        { readPackageJsonName := fun p => if p = "libs/p/package.json" then some "@acme/tool" else none
          sourceUrl := fun s => s
          parse := fun _ => []
          readFile := fun _ => "" } "libs/p/README.md" "rules" "md").outputDir =
      joinPath "rules" ("@" ++ "acme") ∧
    (determineOutputInfo
        { readPackageJsonName := fun p => if p = "libs/p/package.json" then some "@acme/tool" else none
          sourceUrl := fun s => s
          parse := fun _ => []
          readFile := fun _ => "" } "libs/p/README.md" "rules" "md").outputFileName = "tool" ∧
    (determineOutputInfo
        { readPackageJsonName := fun p => if p = "libs/p/package.json" then some "@acme/tool" else none
          sourceUrl := fun s => s
          parse := fun _ => []
          readFile := fun _ => "" } "libs/p/README.md" "rules" "md").atTag = "tool" ∧
    ('@' ∉ "tool".data → generateAtTag (determineOutputInfo
        { readPackageJsonName := fun p => if p = "libs/p/package.json" then some "@acme/tool" else none
          sourceUrl := fun s => s
          parse := fun _ => []
          readFile := fun _ => "" } "libs/p/README.md" "rules" "md").atTag = "@" ++ "tool")) :=
  ⟨by decide, by decide,
    readme_package_naming.1 _ "libs/p/README.md" "rules" "md" "acme" "tool"
      (by decide) (by decide) (by decide) (by decide) (by decide) (by decide)⟩

/-! ## C5 — invalid snippets and the blank-line join -/

/-- Modelled from the spec's words for C5: snippets missing title or code
contribute nothing at all to the output — the blank-line join runs over the
renderings of only the snippets that have both title and code, in input
order. (Spec-side definition, to be compared with
`generateOutputContent`.) -/
def generateOutputContentFiltered (snippets : List Snippet) (outputInfo : OutputInfo)
    (format : String) (options : ConvOptions) : String :=
  if snippets = [] then ""
  else
    (if format = "mdc" then generateMdcFrontmatter outputInfo options else "")
      ++ joinWith "\n\n"
          ((snippets.filter (fun s => decide (s.title ≠ "" ∧ s.code ≠ ""))).map formatSnippet)
      ++ "\n" ++ generateAtTag outputInfo.atTag ++ "\n"

/-- C5 counterexample: with a title-less snippet between two complete ones,
the formatter's output is *not* the blank-line join of the renderings of
only the complete snippets — `Array.join` keeps a slot for the snippet that
rendered as the empty string, so an extra empty separator segment appears
between the two complete blocks. -/
theorem skipped_snippet_counterexample :
    generateOutputContent
        [⟨"T", "D", "S", "js", "C"⟩, ⟨"", "", "", "", "C"⟩, ⟨"T2", "D", "S", "js", "C"⟩]
        ⟨"o/a.md", "o", "a", "a", "s"⟩ "md" {} ≠
      generateOutputContentFiltered
        [⟨"T", "D", "S", "js", "C"⟩, ⟨"", "", "", "", "C"⟩, ⟨"T2", "D", "S", "js", "C"⟩]
        ⟨"o/a.md", "o", "a", "a", "s"⟩ "md" {} := by
  decide

/-- C5 (amended): a snippet missing its title or its code renders as the
empty string, but the blank-line join still reserves its slot: between a
non-empty prefix and a non-empty suffix of snippets, the output contains
the prefix blocks, then two consecutive blank-line separators (around the
empty rendering), then the suffix blocks — instead of contributing nothing
at all. -/
theorem skipped_snippet_amended :
    ∀ (xs ys : List Snippet) (b : Snippet) (info : OutputInfo) (format : String)
      (options : ConvOptions),
    xs ≠ [] → ys ≠ [] → (b.title = "" ∨ b.code = "") →
    generateOutputContent (xs ++ b :: ys) info format options =
      (if format = "mdc" then generateMdcFrontmatter info options else "")
        ++ joinWith "\n\n" (xs.map formatSnippet) ++ "\n\n" ++ "\n\n"
        ++ joinWith "\n\n" (ys.map formatSnippet)
        ++ "\n" ++ generateAtTag info.atTag ++ "\n" := by
  intro xs ys b info format options hxs hys hb
  have hbad : formatSnippet b = "" := by
    unfold formatSnippet
    rw [if_pos hb]
  have hne : xs ++ b :: ys ≠ [] := by
    cases xs with
    | nil => exact absurd rfl hxs
    | cons x t => exact List.cons_ne_nil _ _
  have hmapxs : xs.map formatSnippet ≠ [] := by
    cases xs with
    | nil => exact absurd rfl hxs
    | cons x t => exact List.cons_ne_nil _ _
  have hmap : (xs ++ b :: ys).map formatSnippet =
      xs.map formatSnippet ++ "" :: ys.map formatSnippet := by
    rw [List.map_append, List.map_cons, hbad]
  have hjoin2 : joinWith "\n\n" ("" :: ys.map formatSnippet) =
      "\n\n" ++ joinWith "\n\n" (ys.map formatSnippet) := by
    cases hym : ys.map formatSnippet with
    | nil =>
      cases ys with
      | nil => exact absurd rfl hys
      | cons y t => simp at hym
    | cons y t => rfl
  have hcollapse : ∀ Z : String, ("\n\n" : String) ++ ("\n\n" ++ Z) = "\n\n\n\n" ++ Z := by
    intro Z
    rw [← String.append_assoc]
    rfl
  unfold generateOutputContent
  rw [if_neg hne, hmap,
    joinWith_append "\n\n" (xs.map formatSnippet) ("" :: ys.map formatSnippet)
      hmapxs (List.cons_ne_nil _ _),
    hjoin2]
  simp [String.append_assoc, hcollapse]

theorem skipped_snippet_amended_witness :
    ([⟨"T", "D", "S", "js", "C"⟩] : List Snippet) ≠ [] ∧
    ([⟨"T2", "D", "S", "js", "C"⟩] : List Snippet) ≠ [] ∧
    ((⟨"", "", "", "", "C"⟩ : Snippet).title = "" ∨ (⟨"", "", "", "", "C"⟩ : Snippet).code = "") ∧
    generateOutputContent
        ([⟨"T", "D", "S", "js", "C"⟩] ++ (⟨"", "", "", "", "C"⟩ : Snippet) :: [⟨"T2", "D", "S", "js", "C"⟩])
        ⟨"o/a.md", "o", "a", "a", "s"⟩ "md" {} =
      (if "md" = "mdc" then generateMdcFrontmatter ⟨"o/a.md", "o", "a", "a", "s"⟩ {} else "")
        ++ joinWith "\n\n" (([⟨"T", "D", "S", "js", "C"⟩] : List Snippet).map formatSnippet)
        ++ "\n\n" ++ "\n\n"
        ++ joinWith "\n\n" (([⟨"T2", "D", "S", "js", "C"⟩] : List Snippet).map formatSnippet)
        ++ "\n" ++ generateAtTag (⟨"o/a.md", "o", "a", "a", "s"⟩ : OutputInfo).atTag ++ "\n" :=
  ⟨by decide, by decide, Or.inl rfl,
    skipped_snippet_amended [⟨"T", "D", "S", "js", "C"⟩] [⟨"T2", "D", "S", "js", "C"⟩]
      ⟨"", "", "", "", "C"⟩ ⟨"o/a.md", "o", "a", "a", "s"⟩ "md" {}
      (by decide) (by decide) (Or.inl rfl)⟩

/-! ## C6 — empty snippet lists produce no artifact -/

/-- C6: the content formatter returns the empty string for an empty snippet
list, and a document whose extraction yields zero snippets causes
`processMarkdownFile` to perform no write at all (no output artifact, not
an empty file). -/
theorem empty_snippets_no_artifact :
    (∀ (info : OutputInfo) (format : String) (options : ConvOptions),
      generateOutputContent [] info format options = "") ∧
    (∀ (env : Env) (fp dest : String) (options : ConvOptions),
      extractSnippetsFromTokens (env.parse (env.readFile fp)) fp = [] →
      processMarkdownFile env fp dest options = none) := by
  constructor
  · intro info format options
    rfl
  · intro env fp dest options hempty
    simp only [processMarkdownFile]
    rw [hempty]
    simp

theorem empty_snippets_no_artifact_witness :
    extractSnippetsFromTokens
        (({ readPackageJsonName := fun _ => none
            sourceUrl := fun s => s
            parse := fun _ => [⟨"paragraph_open", "", ""⟩]
            readFile := fun _ => "" } : Env).parse
          (({ readPackageJsonName := fun _ => none
              sourceUrl := fun s => s
              parse := fun _ => [⟨"paragraph_open", "", ""⟩]
              readFile := fun _ => "" } : Env).readFile "d/intro.md")) "d/intro.md" = [] ∧
    processMarkdownFile
        { readPackageJsonName := fun _ => none
          sourceUrl := fun s => s
          parse := fun _ => [⟨"paragraph_open", "", ""⟩]
          readFile := fun _ => "" } "d/intro.md" "rules" {} = none :=
  ⟨by decide,
    empty_snippets_no_artifact.2
      { readPackageJsonName := fun _ => none
        sourceUrl := fun s => s
        parse := fun _ => [⟨"paragraph_open", "", ""⟩]
        readFile := fun _ => "" } "d/intro.md" "rules" {} (by decide)⟩

/-! ## C7 — grouping by manifest path -/

/-- The grouping key of a package group: the manifest's resolved file path
(not its name). -/
def keyOf (g : PackageGroup) : String := g.packageInfo.packageJsonPath

/-- The grouping key a file resolves to, if any. -/
def ctxKey (env : Env) (fp : String) : Option String :=
  (getPackageContext env fp).map PackageContext.packageJsonPath

/-- Modelled from the spec's words for C7: first-seen-wins order —
keep the first occurrence of every key, in input order (`seen` carries the
keys already emitted). -/
def firstSeenGo : List String → List String → List String
  | [], _ => []
  | x :: xs, seen => if x ∈ seen then firstSeenGo xs seen else x :: firstSeenGo xs (x :: seen)

def firstSeen (l : List String) : List String := firstSeenGo l []

theorem firstSeenGo_congr : ∀ (xs seen seen' : List String),
    (∀ a, a ∈ seen ↔ a ∈ seen') → firstSeenGo xs seen = firstSeenGo xs seen' := by
  intro xs
  induction xs with
  | nil => intro seen seen' h; rfl
  | cons x t ih =>
    intro seen seen' h
    by_cases hx : x ∈ seen
    · rw [firstSeenGo, if_pos hx, firstSeenGo, if_pos ((h x).mp hx), ih seen seen' h]
    · rw [firstSeenGo, if_neg hx, firstSeenGo, if_neg (fun hc => hx ((h x).mpr hc))]
      rw [ih (x :: seen) (x :: seen') (by intro a; simp [h a])]

theorem addToGroups_keys (groups : List PackageGroup) (fp : String) (ctx : PackageContext) :
    (addToGroups groups fp ctx).map keyOf =
      if ctx.packageJsonPath ∈ groups.map keyOf then groups.map keyOf
      else groups.map keyOf ++ [ctx.packageJsonPath] := by
  induction groups with
  | nil => simp [addToGroups, keyOf]
  | cons g gs ih =>
    by_cases hg : g.packageInfo.packageJsonPath = ctx.packageJsonPath
    · rw [addToGroups, if_pos hg]
      have hmem : ctx.packageJsonPath ∈ (g :: gs).map keyOf := by
        rw [List.map_cons, List.mem_cons]
        exact Or.inl hg.symm
      rw [if_pos hmem]
      simp [keyOf]
    · rw [addToGroups, if_neg hg]
      by_cases hmem : ctx.packageJsonPath ∈ gs.map keyOf
      · have hmem' : ctx.packageJsonPath ∈ (g :: gs).map keyOf := by
          rw [List.map_cons, List.mem_cons]
          exact Or.inr hmem
        rw [if_pos hmem']
        simp only [List.map_cons]
        rw [ih, if_pos hmem]
      · have hmem' : ctx.packageJsonPath ∉ (g :: gs).map keyOf := by
          rw [List.map_cons, List.mem_cons]
          rintro (h | h)
          · exact hg h.symm
          · exact hmem h
        rw [if_neg hmem']
        simp only [List.map_cons, List.cons_append]
        rw [ih, if_neg hmem]

theorem addToGroups_not_mem (groups : List PackageGroup) (fp : String) (ctx : PackageContext)
    (h : ctx.packageJsonPath ∉ groups.map keyOf) :
    addToGroups groups fp ctx = groups ++ [{ packageInfo := ctx, files := [fp] }] := by
  induction groups with
  | nil => rfl
  | cons g gs ih =>
    rw [List.map_cons] at h
    have hg : g.packageInfo.packageJsonPath ≠ ctx.packageJsonPath := by
      intro hc
      exact h (List.mem_cons.mpr (Or.inl hc.symm))
    have htail : ctx.packageJsonPath ∉ gs.map keyOf := by
      intro hc
      exact h (List.mem_cons.mpr (Or.inr hc))
    rw [addToGroups, if_neg hg, ih htail]
    rfl

/-- Helper: the update map leaves every group with a different key
unchanged. -/
theorem map_updIf_eq_self (k fp : String) : ∀ (gs : List PackageGroup),
    (∀ g' ∈ gs, keyOf g' ≠ k) →
    gs.map (fun g => if keyOf g = k then
        { packageInfo := g.packageInfo, files := g.files ++ [fp] }
      else g) = gs := by
  intro gs
  induction gs with
  | nil => intro h; rfl
  | cons g gs ih =>
    intro h
    rw [List.map_cons, if_neg (h g (List.mem_cons_self g gs)),
      ih (fun g' hg' => h g' (List.mem_cons_of_mem g hg'))]

/-- The update `addToGroups` performs when the key is already present,
expressed as a map (legitimate because keys are unique). -/
theorem addToGroups_mem_nodup (groups : List PackageGroup) (fp : String) (ctx : PackageContext)
    (hnd : (groups.map keyOf).Nodup) (h : ctx.packageJsonPath ∈ groups.map keyOf) :
    addToGroups groups fp ctx = groups.map (fun g =>
      if keyOf g = ctx.packageJsonPath then
        { packageInfo := g.packageInfo, files := g.files ++ [fp] }
      else g) := by
  induction groups with
  | nil => simp at h
  | cons g gs ih =>
    rw [List.map_cons, List.nodup_cons] at hnd
    obtain ⟨hnd1, hnd2⟩ := hnd
    by_cases hg : g.packageInfo.packageJsonPath = ctx.packageJsonPath
    · rw [addToGroups, if_pos hg]
      have hmap : gs.map (fun g =>
          if keyOf g = ctx.packageJsonPath then
            { packageInfo := g.packageInfo, files := g.files ++ [fp] }
          else g) = gs := by
        apply map_updIf_eq_self
        intro g' hg' hc
        apply hnd1
        rw [show keyOf g = g.packageInfo.packageJsonPath from rfl, hg, ← hc]
        exact List.mem_map_of_mem keyOf hg'
      simp only [List.map_cons, hmap]
      rw [if_pos (show keyOf g = ctx.packageJsonPath from hg)]
    · rw [addToGroups, if_neg hg]
      have hmem : ctx.packageJsonPath ∈ gs.map keyOf := by
        rw [List.map_cons, List.mem_cons] at h
        rcases h with h | h
        · exact absurd h.symm hg
        · exact h
      simp only [List.map_cons]
      rw [if_neg (show ¬ keyOf g = ctx.packageJsonPath from hg), ih hnd2 hmem]

theorem groupGo_standalone (env : Env) : ∀ (rest : List String) (groups : List PackageGroup)
    (standalone : List String),
    (groupGo env rest groups standalone).2 =
      standalone ++ rest.filter (fun fp => (getPackageContext env fp).isNone) := by
  intro rest
  induction rest with
  | nil => intro groups standalone; simp [groupGo]
  | cons fp rest ih =>
    intro groups standalone
    cases hctx : getPackageContext env fp with
    | some ctx =>
      rw [groupGo, hctx]
      rw [ih]
      rw [List.filter_cons]
      simp [hctx]
    | none =>
      rw [groupGo, hctx]
      rw [ih]
      rw [List.filter_cons]
      simp [hctx]

theorem groupGo_keys (env : Env) : ∀ (rest : List String) (groups : List PackageGroup)
    (standalone : List String),
    (groupGo env rest groups standalone).1.map keyOf =
      groups.map keyOf ++ firstSeenGo (rest.filterMap (ctxKey env)) (groups.map keyOf) := by
  intro rest
  induction rest with
  | nil => intro groups standalone; simp [groupGo, firstSeenGo]
  | cons fp rest ih =>
    intro groups standalone
    cases hctx : getPackageContext env fp with
    | none =>
      rw [groupGo, hctx, ih]
      have hk : ctxKey env fp = none := by simp [ctxKey, hctx]
      rw [List.filterMap_cons, hk]
    | some ctx =>
      rw [groupGo, hctx, ih]
      have hk : ctxKey env fp = some ctx.packageJsonPath := by simp [ctxKey, hctx]
      rw [List.filterMap_cons, hk]
      rw [addToGroups_keys]
      by_cases hmem : ctx.packageJsonPath ∈ groups.map keyOf
      · rw [if_pos hmem, firstSeenGo, if_pos hmem]
      · rw [if_neg hmem, firstSeenGo, if_neg hmem]
        rw [firstSeenGo_congr (rest.filterMap (ctxKey env))
          (groups.map keyOf ++ [ctx.packageJsonPath]) (ctx.packageJsonPath :: groups.map keyOf)
          (by
            intro a
            rw [List.mem_append, List.mem_singleton, List.mem_cons]
            tauto)]
        simp

theorem groupGo_files (env : Env) : ∀ (rest : List String) (groups : List PackageGroup)
    (standalone P : List String),
    (groups.map keyOf).Nodup →
    (∀ g ∈ groups, g.files = P.filter (fun fp => decide (ctxKey env fp = some (keyOf g)))) →
    (∀ fp ∈ P, ∀ k, ctxKey env fp = some k → k ∈ groups.map keyOf) →
    ∀ g ∈ (groupGo env rest groups standalone).1,
      g.files = (P ++ rest).filter (fun fp => decide (ctxKey env fp = some (keyOf g))) := by
  intro rest
  induction rest with
  | nil =>
    intro groups standalone P hnd hfiles hcomp g hg
    rw [groupGo] at hg
    rw [List.append_nil]
    exact hfiles g hg
  | cons fp rest ih =>
    intro groups standalone P hnd hfiles hcomp g hg
    have hPcons : P ++ fp :: rest = (P ++ [fp]) ++ rest := by simp
    rw [hPcons]
    cases hctx : getPackageContext env fp with
    | none =>
      simp only [groupGo, hctx] at hg
      have hk : ctxKey env fp = none := by simp [ctxKey, hctx]
      refine ih groups (standalone ++ [fp]) (P ++ [fp]) hnd ?_ ?_ g hg
      · intro g' hg'
        rw [hfiles g' hg', List.filter_append]
        have hsingle : List.filter (fun fp => decide (ctxKey env fp = some (keyOf g'))) [fp] = [] := by
          simp [hk]
        rw [hsingle, List.append_nil]
      · intro fp' hfp' k hk'
        rcases List.mem_append.mp hfp' with h | h
        · exact hcomp fp' h k hk'
        · have hfpeq : fp' = fp := by simpa using h
          rw [hfpeq, hk] at hk'
          cases hk'
    | some ctx =>
      simp only [groupGo, hctx] at hg
      have hk : ctxKey env fp = some ctx.packageJsonPath := by simp [ctxKey, hctx]
      by_cases hmem : ctx.packageJsonPath ∈ groups.map keyOf
      · have hupd := addToGroups_mem_nodup groups fp ctx hnd hmem
        refine ih (addToGroups groups fp ctx) standalone (P ++ [fp]) ?_ ?_ ?_ g hg
        · rw [addToGroups_keys, if_pos hmem]
          exact hnd
        · intro g' hg'
          rw [hupd] at hg'
          obtain ⟨g0, hg0, hg0eq⟩ := List.mem_map.mp hg'
          subst hg0eq
          by_cases hkey : keyOf g0 = ctx.packageJsonPath
          · rw [if_pos hkey]
            show g0.files ++ [fp] =
              List.filter (fun fp' => decide (ctxKey env fp' = some (keyOf g0))) (P ++ [fp])
            rw [List.filter_append, ← hfiles g0 hg0]
            have hsingle :
                List.filter (fun fp' => decide (ctxKey env fp' = some (keyOf g0))) [fp] = [fp] := by
              simp [hk, hkey]
            rw [hsingle]
          · rw [if_neg hkey]
            show g0.files =
              List.filter (fun fp' => decide (ctxKey env fp' = some (keyOf g0))) (P ++ [fp])
            rw [List.filter_append, ← hfiles g0 hg0]
            have hsingle :
                List.filter (fun fp' => decide (ctxKey env fp' = some (keyOf g0))) [fp] = [] := by
              simp [hk]
              intro hc
              exact hkey hc.symm
            rw [hsingle, List.append_nil]
        · intro fp' hfp' k hk'
          rw [addToGroups_keys, if_pos hmem]
          rcases List.mem_append.mp hfp' with h | h
          · exact hcomp fp' h k hk'
          · have hfpeq : fp' = fp := by simpa using h
            rw [hfpeq, hk] at hk'
            cases hk'
            exact hmem
      · have hupd := addToGroups_not_mem groups fp ctx hmem
        refine ih (addToGroups groups fp ctx) standalone (P ++ [fp]) ?_ ?_ ?_ g hg
        · rw [addToGroups_keys, if_neg hmem]
          simp [List.nodup_append, hnd, hmem]
        · intro g' hg'
          rw [hupd] at hg'
          rcases List.mem_append.mp hg' with h | h
          · rw [hfiles g' h, List.filter_append]
            have hsingle :
                List.filter (fun fp' => decide (ctxKey env fp' = some (keyOf g'))) [fp] = [] := by
              simp [hk]
              intro hc
              apply hmem
              rw [hc]
              exact List.mem_map_of_mem keyOf h
            rw [hsingle, List.append_nil]
          · have hg'' : g' = { packageInfo := ctx, files := [fp] } := by simpa using h
            subst hg''
            show [fp] =
              List.filter (fun fp' => decide (ctxKey env fp' = some ctx.packageJsonPath)) (P ++ [fp])
            rw [List.filter_append]
            have hP : List.filter
                (fun fp' => decide (ctxKey env fp' = some ctx.packageJsonPath)) P = [] := by
              apply List.filter_eq_nil_iff.mpr
              intro fp' hfp'
              simp
              intro hc
              exact absurd (hcomp fp' hfp' ctx.packageJsonPath hc) hmem
            have hsingle : List.filter
                (fun fp' => decide (ctxKey env fp' = some ctx.packageJsonPath)) [fp] = [fp] := by
              simp [hk]
            rw [hP, hsingle]
            rfl
        · intro fp' hfp' k hk'
          rw [addToGroups_keys, if_neg hmem]
          rcases List.mem_append.mp hfp' with h | h
          · exact List.mem_append_left _ (hcomp fp' h k hk')
          · have hfpeq : fp' = fp := by simpa using h
            rw [hfpeq, hk] at hk'
            cases hk'
            exact List.mem_append_right _ (by simp)

/-- C7: grouping partitions the input by resolved manifest file path —
(i) the standalone list is exactly the files with no resolvable package, in
input order; (ii) the groups' keys are the distinct manifest paths in
first-seen order (so files resolving to the same manifest path are merged
into one group, and two manifests are distinct groups exactly when their
*paths* differ, regardless of names); (iii) each group's file list is
exactly the input files resolving to its manifest path, in input (append)
order. -/
theorem package_grouping :
    ∀ (env : Env) (files : List String),
    (groupFilesByPackage env files).2 =
        files.filter (fun fp => (getPackageContext env fp).isNone) ∧
    (groupFilesByPackage env files).1.map keyOf =
        firstSeen (files.filterMap (ctxKey env)) ∧
    ∀ g ∈ (groupFilesByPackage env files).1,
      g.files = files.filter (fun fp => decide (ctxKey env fp = some (keyOf g))) := by
  intro env files
  refine ⟨?_, ?_, ?_⟩
  · unfold groupFilesByPackage
    have := groupGo_standalone env files [] []
    simpa using this
  · unfold groupFilesByPackage firstSeen
    have := groupGo_keys env files [] []
    simpa using this
  · intro g hg
    have := groupGo_files env files [] [] [] (by simp) (by simp) (by simp) g hg
    simpa using this

theorem package_grouping_witness :
    (⟨⟨"pkgs/a/package.json", "@scope/alpha", "pkgs/a"⟩,
        ["pkgs/a/README.md", "pkgs/a/guide.md"]⟩ : PackageGroup) ∈
      (groupFilesByPackage
        { readPackageJsonName := fun p => if p = "pkgs/a/package.json" then some "@scope/alpha" else none
          sourceUrl := fun s => s
          parse := fun _ => []
          readFile := fun _ => "" }
        ["pkgs/a/README.md", "pkgs/a/guide.md", "docs/intro.md"]).1 ∧
    (⟨⟨"pkgs/a/package.json", "@scope/alpha", "pkgs/a"⟩,
        ["pkgs/a/README.md", "pkgs/a/guide.md"]⟩ : PackageGroup).files =
      ["pkgs/a/README.md", "pkgs/a/guide.md", "docs/intro.md"].filter
        (fun fp => decide (ctxKey
          { readPackageJsonName := fun p => if p = "pkgs/a/package.json" then some "@scope/alpha" else none
            sourceUrl := fun s => s
            parse := fun _ => []
            readFile := fun _ => "" } fp =
          some (keyOf (⟨⟨"pkgs/a/package.json", "@scope/alpha", "pkgs/a"⟩,
            ["pkgs/a/README.md", "pkgs/a/guide.md"]⟩ : PackageGroup)))) :=
  ⟨by decide,
    (package_grouping
      { readPackageJsonName := fun p => if p = "pkgs/a/package.json" then some "@scope/alpha" else none
        sourceUrl := fun s => s
        parse := fun _ => []
        readFile := fun _ => "" }
      ["pkgs/a/README.md", "pkgs/a/guide.md", "docs/intro.md"]).2.2 _ (by decide)⟩

/-! ## C8 — fail-at-end batch accounting -/

theorem processGroupsLoop_spec (procGroup : PackageGroup → Except String Unit) :
    ∀ (gs : List PackageGroup) (a b : Nat),
    processGroupsLoop procGroup gs (a, b) =
      (a + ((gs.filter (fun g => isOkE (procGroup g))).map (fun g => g.files.length)).sum,
       b + ((gs.filter (fun g => !isOkE (procGroup g))).map (fun g => g.files.length)).sum) := by
  intro gs
  induction gs with
  | nil => intro a b; simp [processGroupsLoop]
  | cons g gs ih =>
    intro a b
    cases hpg : procGroup g with
    | ok u =>
      have hok : isOkE (procGroup g) = true := by rw [hpg]; rfl
      simp only [processGroupsLoop, hpg]
      rw [ih, List.filter_cons, List.filter_cons]
      simp [hok, Prod.ext_iff]; omega
    | error e =>
      have hok : isOkE (procGroup g) = false := by rw [hpg]; rfl
      simp only [processGroupsLoop, hpg]
      rw [ih, List.filter_cons, List.filter_cons]
      simp [hok, Prod.ext_iff]; omega

theorem processFilesLoop_spec (procFile : String → Except String Unit) :
    ∀ (fps : List String) (a b : Nat),
    processFilesLoop procFile fps (a, b) =
      (a + (fps.filter (fun f => isOkE (procFile f))).length,
       b + (fps.filter (fun f => !isOkE (procFile f))).length) := by
  intro fps
  induction fps with
  | nil => intro a b; simp [processFilesLoop]
  | cons fp fps ih =>
    intro a b
    cases hpf : procFile fp with
    | ok u =>
      have hok : isOkE (procFile fp) = true := by rw [hpf]; rfl
      simp only [processFilesLoop, hpf]
      rw [ih, List.filter_cons, List.filter_cons]
      simp [hok, Prod.ext_iff]; omega
    | error e =>
      have hok : isOkE (procFile fp) = false := by rw [hpf]; rfl
      simp only [processFilesLoop, hpf]
      rw [ih, List.filter_cons, List.filter_cons]
      simp [hok, Prod.ext_iff]; omega

theorem sum_map_filter_partition (f : PackageGroup → Nat) (p : PackageGroup → Bool) :
    ∀ gs : List PackageGroup,
    ((gs.filter p).map f).sum + ((gs.filter (fun g => !p g)).map f).sum = (gs.map f).sum := by
  intro gs
  induction gs with
  | nil => rfl
  | cons g gs ih =>
    rw [List.filter_cons, List.filter_cons]
    cases hp : p g <;> simp [hp, ← ih] <;> omega

theorem length_filter_partition (p : String → Bool) : ∀ l : List String,
    (l.filter p).length + (l.filter (fun x => !p x)).length = l.length := by
  intro l
  induction l with
  | nil => rfl
  | cons x l ih =>
    rw [List.filter_cons, List.filter_cons]
    cases hp : p x <;> simp [hp, ← ih] <;> omega

/-- C8: per-item failures are caught and merely counted — the processed and
error counts always partition the whole batch (so every file and every
package group is attempted no matter which items fail), and the overall
outcome is decided only after the loops finish: it is the thrown
`Conversion failed` error exactly when the accumulated error count is
non-zero, and success otherwise. -/
theorem batch_fail_at_end :
    (∀ (procGroup : PackageGroup → Except String Unit) (procFile : String → Except String Unit)
        (packageGroups : List PackageGroup) (standaloneFiles : List String),
      processGroupedFiles procGroup procFile packageGroups standaloneFiles =
        (((packageGroups.filter (fun g => isOkE (procGroup g))).map (fun g => g.files.length)).sum
           + (standaloneFiles.filter (fun f => isOkE (procFile f))).length,
         ((packageGroups.filter (fun g => !isOkE (procGroup g))).map (fun g => g.files.length)).sum
           + (standaloneFiles.filter (fun f => !isOkE (procFile f))).length)) ∧
    (∀ (procGroup : PackageGroup → Except String Unit) (procFile : String → Except String Unit)
        (packageGroups : List PackageGroup) (standaloneFiles : List String),
      (processGroupedFiles procGroup procFile packageGroups standaloneFiles).1
          + (processGroupedFiles procGroup procFile packageGroups standaloneFiles).2 =
        (packageGroups.map (fun g => g.files.length)).sum + standaloneFiles.length) ∧
    (∀ (procGroup : PackageGroup → Except String Unit) (procFile : String → Except String Unit)
        (packageGroups : List PackageGroup) (standaloneFiles : List String),
      ((processGroupedFiles procGroup procFile packageGroups standaloneFiles).2 > 0 →
        processConversionOutcome procGroup procFile packageGroups standaloneFiles =
          .error ("Conversion failed with "
            ++ toString (processGroupedFiles procGroup procFile packageGroups standaloneFiles).2
            ++ " errors")) ∧
      ((processGroupedFiles procGroup procFile packageGroups standaloneFiles).2 = 0 →
        processConversionOutcome procGroup procFile packageGroups standaloneFiles =
          .ok (processGroupedFiles procGroup procFile packageGroups standaloneFiles))) := by
  have hmain : ∀ (procGroup : PackageGroup → Except String Unit)
      (procFile : String → Except String Unit)
      (packageGroups : List PackageGroup) (standaloneFiles : List String),
      processGroupedFiles procGroup procFile packageGroups standaloneFiles =
        (((packageGroups.filter (fun g => isOkE (procGroup g))).map (fun g => g.files.length)).sum
           + (standaloneFiles.filter (fun f => isOkE (procFile f))).length,
         ((packageGroups.filter (fun g => !isOkE (procGroup g))).map (fun g => g.files.length)).sum
           + (standaloneFiles.filter (fun f => !isOkE (procFile f))).length) := by
    intro procGroup procFile packageGroups standaloneFiles
    unfold processGroupedFiles
    rw [processGroupsLoop_spec, processFilesLoop_spec]
    simp
  refine ⟨hmain, ?_, ?_⟩
  · intro procGroup procFile packageGroups standaloneFiles
    rw [hmain]
    have h1 := sum_map_filter_partition (fun g => g.files.length)
      (fun g => isOkE (procGroup g)) packageGroups
    have h2 := length_filter_partition (fun f => isOkE (procFile f)) standaloneFiles
    simp only []
    omega
  · intro procGroup procFile packageGroups standaloneFiles
    constructor
    · intro hpos
      unfold processConversionOutcome
      rw [if_pos hpos]
    · intro hzero
      unfold processConversionOutcome
      rw [if_neg (by omega)]

theorem batch_fail_at_end_witness :
    (processGroupedFiles (fun _ => .error "boom") (fun _ => .ok ())
        [⟨⟨"p/package.json", "p", "p"⟩, ["p/a.md", "p/b.md"]⟩] ["c.md"]).2 > 0 ∧
    processConversionOutcome (fun _ => .error "boom") (fun _ => .ok ())
        [⟨⟨"p/package.json", "p", "p"⟩, ["p/a.md", "p/b.md"]⟩] ["c.md"] =
      .error ("Conversion failed with "
        ++ toString (processGroupedFiles (fun _ => .error "boom") (fun _ => .ok ())
            [⟨⟨"p/package.json", "p", "p"⟩, ["p/a.md", "p/b.md"]⟩] ["c.md"]).2
        ++ " errors") :=
  ⟨by decide,
    (batch_fail_at_end.2.2 (fun _ => .error "boom") (fun _ => .ok ())
      [⟨⟨"p/package.json", "p", "p"⟩, ["p/a.md", "p/b.md"]⟩] ["c.md"]).1 (by decide)⟩

/-! ## C9 — mdc option mutual exclusion -/

/-- C9: supplying both an apply-glob pattern and an explicitly set
always-apply flag (true or false) makes `validateOptions` fail, and
`handleConvertCommand` propagates a validation error without ever invoking
the conversion — so the error is raised before any file processing; with
neither or only one of the two supplied (and the other options at their
defaults; a supplied glob must trim to a non-empty pattern, as §6 requires),
validation succeeds and records exactly the supplied option. -/
theorem mdc_mutual_exclusion :
    (∀ (options : RawOptions) (b : Bool) (g : String),
      options.alwaysApply = some b → options.applyGlob = some g →
      ∃ e, validateOptions options = .error e) ∧
    (∀ (processRun : String → List String → ValidatedOptions → Except String Unit)
        (dest : String) (dirs : List String) (options : RawOptions) (e : String),
      validateOptions options = .error e →
      handleConvertCommand processRun dest dirs options = .error e) ∧
    (∀ options : RawOptions,
      options.format = none → options.sourceUrl = none →
      options.alwaysApply = none → options.applyGlob = none →
      ∃ v, validateOptions options = .ok v ∧ v.alwaysApply = none ∧ v.applyGlob = none) ∧
    (∀ (options : RawOptions) (b : Bool),
      options.format = none → options.sourceUrl = none →
      options.alwaysApply = some b → options.applyGlob = none →
      ∃ v, validateOptions options = .ok v ∧ v.alwaysApply = some b ∧ v.applyGlob = none) ∧
    (∀ (options : RawOptions) (g : String),
      options.format = none → options.sourceUrl = none →
      options.alwaysApply = none → options.applyGlob = some g → jsTrim g ≠ "" →
      ∃ v, validateOptions options = .ok v ∧ v.alwaysApply = none ∧
        v.applyGlob = some (jsTrim g)) := by
  refine ⟨?_, ?_, ?_, ?_, ?_⟩
  · intro options b g halways happly
    have hmdc : ∃ e, validateMdcOptions options = .error e := by
      simp only [validateMdcOptions, happly]
      by_cases hjt : jsTrim g = ""
      · exact ⟨_, by rw [if_pos hjt]⟩
      · have hne : (match options.alwaysApply with
            | some true => some true
            | some false => some false
            | none => none) ≠ (none : Option Bool) := by
          rw [halways]
          cases b <;> simp
        exact ⟨_, by rw [if_neg hjt, if_pos hne]⟩
    cases hf : validateFormatPart options with
    | error e => exact ⟨e, by simp only [validateOptions, hf]⟩
    | ok f =>
      cases hs : validateSourceUrlPart options with
      | error e => exact ⟨e, by simp only [validateOptions, hf, hs]⟩
      | ok su =>
        obtain ⟨e, hm⟩ := hmdc
        exact ⟨e, by simp only [validateOptions, hf, hs, hm]⟩
  · intro processRun dest dirs options e hval
    simp only [handleConvertCommand, hval]
  · intro options hformat hsource halways happly
    have hf : validateFormatPart options = .ok "md" := by
      simp only [validateFormatPart, hformat]
    have hs : validateSourceUrlPart options = .ok none := by
      simp only [validateSourceUrlPart, hsource]
    have hm : validateMdcOptions options = .ok (none, none) := by
      simp only [validateMdcOptions, happly, halways]
    refine ⟨{ format := "md"
              excludeDirs := match options.exclude with
                | none => DEFAULT_EXCLUDE_DIRS
                | some e => if e = "" then DEFAULT_EXCLUDE_DIRS else parseExcludeDirs e
              sourceUrl := none, alwaysApply := none, applyGlob := none },
      by simp only [validateOptions, hf, hs, hm], rfl, rfl⟩
  · intro options b hformat hsource halways happly
    have hf : validateFormatPart options = .ok "md" := by
      simp only [validateFormatPart, hformat]
    have hs : validateSourceUrlPart options = .ok none := by
      simp only [validateSourceUrlPart, hsource]
    have hm : validateMdcOptions options = .ok (some b, none) := by
      simp only [validateMdcOptions, happly, halways]
      cases b <;> rfl
    refine ⟨{ format := "md"
              excludeDirs := match options.exclude with
                | none => DEFAULT_EXCLUDE_DIRS
                | some e => if e = "" then DEFAULT_EXCLUDE_DIRS else parseExcludeDirs e
              sourceUrl := none, alwaysApply := some b, applyGlob := none },
      by simp only [validateOptions, hf, hs, hm], rfl, rfl⟩
  · intro options g hformat hsource halways happly hjt
    have hf : validateFormatPart options = .ok "md" := by
      simp only [validateFormatPart, hformat]
    have hs : validateSourceUrlPart options = .ok none := by
      simp only [validateSourceUrlPart, hsource]
    have hm : validateMdcOptions options = .ok (none, some (jsTrim g)) := by
      simp only [validateMdcOptions, happly, halways]
      rw [if_neg hjt, if_neg (by simp)]
    refine ⟨{ format := "md"
              excludeDirs := match options.exclude with
                | none => DEFAULT_EXCLUDE_DIRS
                | some e => if e = "" then DEFAULT_EXCLUDE_DIRS else parseExcludeDirs e
              sourceUrl := none, alwaysApply := none, applyGlob := some (jsTrim g) },
      by simp only [validateOptions, hf, hs, hm], rfl, rfl⟩

theorem mdc_mutual_exclusion_witness :
    ({ alwaysApply := some true, applyGlob := some "**/*.js" } : RawOptions).alwaysApply =
        some true ∧
    ({ alwaysApply := some true, applyGlob := some "**/*.js" } : RawOptions).applyGlob =
        some "**/*.js" ∧
    (∃ e, validateOptions { alwaysApply := some true, applyGlob := some "**/*.js" } = .error e) ∧
    validateOptions ({ alwaysApply := some true, applyGlob := some "**/*.js" } : RawOptions) =
      .error "Cannot use both --always-apply/--no-always-apply and --apply-glob options together" ∧
    handleConvertCommand (fun _ _ _ => .ok ()) "dest" ["docs"]
        { alwaysApply := some true, applyGlob := some "**/*.js" } =
      .error "Cannot use both --always-apply/--no-always-apply and --apply-glob options together" ∧
    (∃ v, validateOptions ({} : RawOptions) = .ok v ∧ v.alwaysApply = none ∧ v.applyGlob = none) ∧
    (∃ v, validateOptions { alwaysApply := some false } = .ok v ∧
      v.alwaysApply = some false ∧ v.applyGlob = none) ∧
    (∃ v, validateOptions { applyGlob := some " x " } = .ok v ∧ v.alwaysApply = none ∧
      v.applyGlob = some (jsTrim " x ")) :=
  ⟨rfl, rfl,
    mdc_mutual_exclusion.1 _ true "**/*.js" rfl rfl,
    by rfl,
    mdc_mutual_exclusion.2.1 (fun _ _ _ => .ok ()) "dest" ["docs"] _ _ (by rfl),
    mdc_mutual_exclusion.2.2.1 {} rfl rfl rfl rfl,
    mdc_mutual_exclusion.2.2.2.1 _ false rfl rfl rfl rfl,
    mdc_mutual_exclusion.2.2.2.2 _ " x " rfl rfl rfl rfl (by decide)⟩

/-! ## C10 — per-file tags inside multi-file package groups -/

theorem processFileInPackageDirectory_some {env : Env} {fp : String}
    {poi : PackageOutputInfo} {options : ConvOptions} {w : OutputInfo × String}
    (h : processFileInPackageDirectory env fp poi options = some w) :
    w.1.atTag = basenameNoExt fp ".md" ∧ w.1.outputDir = poi.packageDir ∧
    w.1.outputPath = joinPath poi.packageDir
      (basenameNoExt fp ".md" ++ getOutputExtension options.format) := by
  simp only [processFileInPackageDirectory] at h
  by_cases hs : extractSnippetsFromTokens (env.parse (env.readFile fp)) fp = []
  · rw [if_pos hs] at h
    cases h
  · rw [if_neg hs] at h
    cases h
    exact ⟨rfl, rfl, rfl⟩

/-- C10: in a package group holding more than one file, every write the
processor performs carries an at-tag equal to that source file's own base
name without the `.md` extension — never the package name — and the package
name (with its scope) determines only the directory the files are placed
in, `determinePackageOutputInfo`'s package directory. -/
theorem package_group_file_tags :
    ∀ (env : Env) (group : PackageGroup) (dest : String) (options : ConvOptions),
    group.files.length > 1 →
    ∀ w ∈ processPackageMarkdownFiles env group dest options,
      ∃ fp ∈ group.files,
        w.1.atTag = basenameNoExt fp ".md" ∧
        w.1.outputDir =
          (determinePackageOutputInfo group.packageInfo.packageName dest
            options.format).packageDir ∧
        w.1.outputPath = joinPath
          (determinePackageOutputInfo group.packageInfo.packageName dest
            options.format).packageDir
          (basenameNoExt fp ".md" ++ getOutputExtension options.format) := by
  intro env group dest options hlen w hw
  have hmulti : hasMultipleMarkdownFiles group = true := by
    simp [hasMultipleMarkdownFiles]
    exact hlen
  rw [processPackageMarkdownFiles, if_pos hmulti] at hw
  obtain ⟨fp, hfp, hsome⟩ := List.mem_filterMap.mp hw
  obtain ⟨h1, h2, h3⟩ := processFileInPackageDirectory_some hsome
  exact ⟨fp, hfp, h1, h2, h3⟩

theorem package_group_file_tags_witness :
    (⟨⟨"pkgs/a/package.json", "@scope/alpha", "pkgs/a"⟩,
        ["pkgs/a/README.md", "pkgs/a/guide.md"]⟩ : PackageGroup).files.length > 1 ∧
    (⟨{ outputPath := "rules/@scope/alpha/README.md"
        outputDir := "rules/@scope/alpha"
        outputFileName := "README"
        atTag := "README"
        source := "pkgs/a/README.md" },
      "TITLE: Snippet 1\nDESCRIPTION: \nSOURCE: pkgs/a/README.md\nLANGUAGE: js\nCODE:\n```js\nx\n```\n\n----------------------------------------\n@README\n"⟩ :
        OutputInfo × String) ∈
      processPackageMarkdownFiles
        { readPackageJsonName := fun p => if p = "pkgs/a/package.json" then some "@scope/alpha" else none
          sourceUrl := fun s => s
          parse := fun _ => [⟨"fence", "x", "js"⟩]
          readFile := fun _ => "" }
        ⟨⟨"pkgs/a/package.json", "@scope/alpha", "pkgs/a"⟩,
          ["pkgs/a/README.md", "pkgs/a/guide.md"]⟩ "rules" {} ∧
    (∃ fp ∈ (⟨⟨"pkgs/a/package.json", "@scope/alpha", "pkgs/a"⟩,
        ["pkgs/a/README.md", "pkgs/a/guide.md"]⟩ : PackageGroup).files,
      ({ outputPath := "rules/@scope/alpha/README.md"
         outputDir := "rules/@scope/alpha"
         outputFileName := "README"
         atTag := "README"
         source := "pkgs/a/README.md" } : OutputInfo).atTag = basenameNoExt fp ".md" ∧
      ({ outputPath := "rules/@scope/alpha/README.md"
         outputDir := "rules/@scope/alpha"
         outputFileName := "README"
         atTag := "README"
         source := "pkgs/a/README.md" } : OutputInfo).outputDir =
        (determinePackageOutputInfo "@scope/alpha" "rules" "md").packageDir ∧
      ({ outputPath := "rules/@scope/alpha/README.md"
         outputDir := "rules/@scope/alpha"
         outputFileName := "README"
         atTag := "README"
         source := "pkgs/a/README.md" } : OutputInfo).outputPath =
        joinPath (determinePackageOutputInfo "@scope/alpha" "rules" "md").packageDir
          (basenameNoExt fp ".md" ++ getOutputExtension "md")) :=
  ⟨by decide, by decide,
    package_group_file_tags
      { readPackageJsonName := fun p => if p = "pkgs/a/package.json" then some "@scope/alpha" else none
        sourceUrl := fun s => s
        parse := fun _ => [⟨"fence", "x", "js"⟩]
        readFile := fun _ => "" }
      ⟨⟨"pkgs/a/package.json", "@scope/alpha", "pkgs/a"⟩,
        ["pkgs/a/README.md", "pkgs/a/guide.md"]⟩ "rules" {} (by decide)
      (⟨{ outputPath := "rules/@scope/alpha/README.md"
          outputDir := "rules/@scope/alpha"
          outputFileName := "README"
          atTag := "README"
          source := "pkgs/a/README.md" },
        "TITLE: Snippet 1\nDESCRIPTION: \nSOURCE: pkgs/a/README.md\nLANGUAGE: js\nCODE:\n```js\nx\n```\n\n----------------------------------------\n@README\n"⟩ :
          OutputInfo × String) (by decide)⟩

end Md2llm
